import Mathlib

/-!
# rviz_info_display: distance accumulation and telemetry overlay

A shallow embedding of `src/rviz_info_display.cpp`.

* `Fp` is an IEEE 754 binary floating-point datum (finite values, signed zeros,
  infinities, NaNs); `binary64` and `binary32` are the formats of `double` and
  `float`.  An operation is the exact rational result rounded to nearest, ties
  to even, with overflow to infinity and underflow through the subnormal
  range; every operation of the source is rounded on its own (no fused
  multiply-add).  Of a NaN only the sign bit is kept; an invalid operation
  yields the x86-64 default NaN.
* `DistanceCalculator` carries the four data members of the C++ node.  Its
  callbacks are functions on that record over an `Arithmetic`; `double` is the
  arithmetic of the C++ type `double`.
* The read `buttons[8]` of a vector with fewer than nine elements is unchecked
  in the source; what it yields is the parameter `oob`.
* `WhillInfoPublisher` carries the four `float` members.  Rendering goes
  through a small model of `std::stringstream` with its sticky `fixed` flag and
  precision.  The result of `static_cast<int>` outside the range of `int` is the
  parameter `ub`.
-/

namespace RvizInfoDisplay

/-! ## IEEE 754 binary floating point -/

/-- A floating-point datum: a finite value (`finite 0` is +0), negative zero, an
infinity with its sign, or a NaN with its sign bit. -/
inductive Fp where
  | finite (q : ℚ)
  | negZero
  | inf (neg : Bool)
  | nan (neg : Bool)
  deriving DecidableEq, Repr

/-- A binary format: significand bits, least and greatest normal exponent. -/
structure Format where
  prec : Nat
  emin : Int
  emax : Int
  deriving DecidableEq, Repr

/-- The format of `double`. -/
def binary64 : Format :=
  ⟨53, -1022, 1023⟩

/-- The format of `float`. -/
def binary32 : Format :=
  ⟨24, -126, 127⟩

/-- The power `2 ^ k` of an integer exponent. -/
def pow2 (k : Int) : ℚ :=
  if 0 ≤ k then ((2 ^ k.toNat : Nat) : ℚ) else 1 / ((2 ^ (-k).toNat : Nat) : ℚ)

/-- Nearest integer, ties to the even neighbour. -/
def roundHalfEven (q : ℚ) : Int :=
  let f := Rat.floor q
  let r := q - f
  if r < 1 / 2 then f
  else if 1 / 2 < r then f + 1
  else if f % 2 = 0 then f
  else f + 1

/-- Position of the leading binary digit of `n` (0 for `n < 2`), by repeated
halving; `fuel` bounds the number of halvings and `n` itself always suffices. -/
def floorLog2 : Nat → Nat → Nat
  | 0, _ => 0
  | fuel + 1, n => if n < 2 then 0 else floorLog2 fuel (n / 2) + 1

/-- The binary exponent of a non-zero rational: the `e` with
`2 ^ e ≤ |r| < 2 ^ (e + 1)`. -/
def ilog2 (r : ℚ) : Int :=
  let a := |r|
  let e0 : Int := (floorLog2 a.num.natAbs a.num.natAbs : Int) - (floorLog2 a.den a.den : Int)
  if a < pow2 e0 then e0 - 1 else e0

/-- Integer square root, one binary digit at a time from position `bits - 1`
down: the greatest `r` below `2 ^ bits` with `r * r ≤ n`. -/
def isqrtAux (n : Nat) : Nat → Nat → Nat
  | 0, r => r
  | bits + 1, r =>
    let c := r + 2 ^ bits
    isqrtAux n bits (if c * c ≤ n then c else r)

/-- Integer square root. -/
def isqrt (n : Nat) : Nat :=
  isqrtAux n (floorLog2 n n / 2 + 1) 0

namespace Format

/-- Spacing of the format's values around `r`. -/
def ulp (F : Format) (r : ℚ) : ℚ :=
  pow2 (max (ilog2 r) F.emin - ((F.prec : Int) - 1))

/-- Round-to-nearest-even onto the format's grid, exponent unbounded above. -/
def rnd (F : Format) (r : ℚ) : ℚ :=
  if r = 0 then 0 else (roundHalfEven (r / F.ulp r) : ℚ) * F.ulp r

/-- What a rounded magnitude becomes: an infinity when it reaches
`2 ^ (emax + 1)`, a zero with the sign of the exact result when it is 0. -/
def deliver (F : Format) (neg : Bool) (y : ℚ) : Fp :=
  if pow2 (F.emax + 1) ≤ |y| then Fp.inf neg
  else if y = 0 then (if neg then Fp.negZero else Fp.finite 0)
  else Fp.finite y

/-- The floating-point result for the exact result `r` (round to nearest, ties to
even; overflow to infinity, underflow to a signed zero). -/
def round (F : Format) (r : ℚ) : Fp :=
  F.deliver (decide (r < 0)) (F.rnd r)

/-- The grid value nearest to the square root of `q > 0`. -/
def sqrtRnd (F : Format) (q : ℚ) : ℚ :=
  let e : Int := ilog2 q / 2
  let u : ℚ := pow2 (max e F.emin - ((F.prec : Int) - 1))
  let x : ℚ := q / (u * u)
  let k : Nat := isqrt (Rat.floor x).toNat
  let h : ℚ := ((k : ℚ) + 1 / 2) * ((k : ℚ) + 1 / 2)
  let m : Nat := if x < h then k else if h < x then k + 1 else if k % 2 = 0 then k else k + 1
  (m : ℚ) * u

end Format

namespace Fp

/-- The NaN an invalid operation produces (x86-64 SSE sets its sign bit). -/
def defaultNaN : Fp :=
  nan true

/-- The sign bit. -/
def signBit : Fp → Bool
  | finite q => decide (q < 0)
  | negZero => true
  | inf s => s
  | nan s => s

/-- The numeric value of a finite datum or zero; 0 for the others. -/
def toRat : Fp → ℚ
  | finite q => q
  | _ => 0

/-- Neither an infinity nor a NaN. -/
def isFinite : Fp → Bool
  | finite _ => true
  | negZero => true
  | _ => false

/-- A NaN. -/
def isNaN : Fp → Bool
  | nan _ => true
  | _ => false

/-- A zero of either sign. -/
def isZero : Fp → Bool
  | finite q => decide (q = 0)
  | negZero => true
  | _ => false

/-- Negation: the sign bit is flipped. -/
def neg : Fp → Fp
  | finite q => if q = 0 then negZero else finite (-q)
  | negZero => finite 0
  | inf s => inf (!s)
  | nan s => nan (!s)

/-- Addition. -/
def add (F : Format) : Fp → Fp → Fp
  | nan s, _ => nan s
  | _, nan s => nan s
  | inf s, inf t => if s = t then inf s else defaultNaN
  | inf s, _ => inf s
  | _, inf t => inf t
  | negZero, negZero => negZero
  | a, b => F.round (a.toRat + b.toRat)

/-- Subtraction: a NaN operand is returned as it is, otherwise `a + (-b)`. -/
def sub (F : Format) : Fp → Fp → Fp
  | nan s, _ => nan s
  | _, nan s => nan s
  | a, b => add F a (neg b)

/-- Multiplication. -/
def mul (F : Format) : Fp → Fp → Fp
  | nan s, _ => nan s
  | _, nan s => nan s
  | inf s, b => if b.isZero then defaultNaN else inf (xor s b.signBit)
  | a, inf t => if a.isZero then defaultNaN else inf (xor a.signBit t)
  | a, b =>
    if a.toRat * b.toRat = 0 then
      (if xor a.signBit b.signBit then negZero else finite 0)
    else F.round (a.toRat * b.toRat)

/-- Square root. -/
def sqrt (F : Format) : Fp → Fp
  | nan s => nan s
  | inf s => if s then defaultNaN else inf false
  | negZero => negZero
  | finite q =>
    if q < 0 then defaultNaN
    else if q = 0 then finite 0
    else F.round (F.sqrtRnd q)

/-- The comparison `a <= b`: false when an operand is a NaN, the two zeros are
equal. -/
def leb : Fp → Fp → Bool
  | nan _, _ => false
  | _, nan _ => false
  | inf s, inf t => s || !t
  | inf s, _ => s
  | _, inf t => !t
  | a, b => decide (a.toRat ≤ b.toRat)

/-- Conversion to another format (`double` to `float`): finite values are
rounded, the others keep their kind and sign. -/
def convert (F : Format) : Fp → Fp
  | finite q => F.round q
  | x => x

end Fp

/-- A value of the format `F` that is not negative: +infinity, or a finite `y`
with `0 ≤ y` that rounding leaves as it is. -/
def Fp.NonNeg (F : Format) (v : Fp) : Prop :=
  v = Fp.inf false ∨ ∃ y : ℚ, v = Fp.finite y ∧ 0 ≤ y ∧ F.round y = Fp.finite y

/-! ## DistanceCalculator -/

/-- The operations `OnOdomReceived` uses on its number type, and the constant
`0.0`. -/
structure Arithmetic (α : Type) where
  zero : α
  add : α → α → α
  sub : α → α → α
  mul : α → α → α
  sqrt : α → α

/-- The arithmetic of the C++ type `double`. -/
def double : Arithmetic Fp :=
  ⟨Fp.finite 0, Fp.add binary64, Fp.sub binary64, Fp.mul binary64, Fp.sqrt binary64⟩

/-- The conversion of a `double` to `float`: what `static_cast<float>` and the
assignment of a `double` to a `float` do. -/
def toFloat32 (v : Fp) : Fp :=
  Fp.convert binary32 v

/-- Data members of the C++ class `DistanceCalculator` (the subscriptions,
publisher and timer handles carry no data the callbacks read). -/
structure DistanceCalculator (α : Type) where
  total_distance_ : α
  last_x_ : α
  last_y_ : α
  initialized_ : Bool
  deriving DecidableEq, Repr

/-- The process crashing on the read of `buttons[8]` past the end of the
vector. -/
inductive Fault where
  | indexOutOfRange
  deriving DecidableEq, Repr

/-- Equality of callback results is decidable. -/
instance decEqResult {α : Type} [DecidableEq α] : DecidableEq (Except Fault α)
  | Except.ok a, Except.ok b =>
    if h : a = b then isTrue (by rw [h]) else isFalse (fun h1 => h (Except.ok.inj h1))
  | Except.error a, Except.error b =>
    if h : a = b then isTrue (by rw [h]) else isFalse (fun h1 => h (Except.error.inj h1))
  | Except.ok _, Except.error _ => isFalse (fun h => Except.noConfusion h)
  | Except.error _, Except.ok _ => isFalse (fun h => Except.noConfusion h)

namespace DistanceCalculator

variable {α : Type}

/-- Source lines 91-95: `total_distance_ = 0.0; initialized_ = false;`.
The reference position is left as it is. -/
def reset_distance (A : Arithmetic α) (s : DistanceCalculator α) : DistanceCalculator α :=
  { s with total_distance_ := A.zero, initialized_ := false }

/-- The constructor (lines 14-33): the data members have no initialisers, so the
object starts from arbitrary member contents `raw` and calls `reset_distance`. -/
def construct (A : Arithmetic α) (raw : DistanceCalculator α) : DistanceCalculator α :=
  reset_distance A raw

/-- Source lines 43-67.  When not initialised the reference position is first
set to the sample; the displacement from the reference position is then
computed and added in every case. -/
def OnOdomReceived (A : Arithmetic α) (s : DistanceCalculator α) (x y : α) :
    DistanceCalculator α :=
  let s1 : DistanceCalculator α :=
    if !s.initialized_ then
      { s with last_x_ := x, last_y_ := y, initialized_ := true }
    else s
  let dx := A.sub x s1.last_x_
  let dy := A.sub y s1.last_y_
  let distance_increment := A.sqrt (A.add (A.mul dx dx) (A.mul dy dy))
  { s1 with
    total_distance_ := A.add s1.total_distance_ distance_increment
    last_x_ := x
    last_y_ := y }

/-- The value `msg->buttons[8]` evaluates to.  `buttons` is the
`std::vector<int32_t>` of the `Joy` message and `operator[]` does not check the
index: with nine or more elements it is element 8; with fewer the read is out
of bounds and yields `oob buttons`, either some value found in memory or
nothing, the process having crashed. -/
def readButton8 (oob : List Int → Option Int) (buttons : List Int) : Option Int :=
  match buttons[8]? with
  | some b => some b
  | none => oob buttons

/-- Source lines 70-78.  The log line written on reset is not part of the
state. -/
def OnJoyReceived (A : Arithmetic α) (oob : List Int → Option Int) (s : DistanceCalculator α)
    (buttons : List Int) : Except Fault (DistanceCalculator α) :=
  match readButton8 oob buttons with
  | none => Except.error Fault.indexOutOfRange
  | some b => if b = 1 then Except.ok (reset_distance A s) else Except.ok s

/-- Source lines 81-88: the state is only read; the returned pair is the state
afterwards and the `data` field of the published `Float32` message. -/
def PublishDistance {β : Type} (toFloat : α → β) (s : DistanceCalculator α) :
    DistanceCalculator α × β :=
  (s, toFloat s.total_distance_)

/-- Source lines 36-39: `float get_total_distance() const`. -/
def get_total_distance {β : Type} (toFloat : α → β) (s : DistanceCalculator α) : β :=
  toFloat s.total_distance_

/-- Feed position samples to `OnOdomReceived`, oldest first. -/
def feed (A : Arithmetic α) (s : DistanceCalculator α) (samples : List (α × α)) :
    DistanceCalculator α :=
  samples.foldl (fun st p => OnOdomReceived A st p.1 p.2) s

/-- The two operations of the accumulator that change the total. -/
inductive Event (α : Type) where
  | sample (x y : α)
  | reset
  deriving DecidableEq, Repr

/-- One event: a sample goes to `OnOdomReceived`, a reset to `reset_distance`. -/
def applyEvent (A : Arithmetic α) (s : DistanceCalculator α) : Event α → DistanceCalculator α
  | Event.sample x y => OnOdomReceived A s x y
  | Event.reset => reset_distance A s

/-- Run a sequence of events, oldest first. -/
def runEvents (A : Arithmetic α) (s : DistanceCalculator α) (evs : List (Event α)) :
    DistanceCalculator α :=
  evs.foldl (applyEvent A) s

/-- The three callbacks the executor can invoke on the node. -/
inductive Callback (α : Type) where
  | odom (x y : α)
  | joy (buttons : List Int)
  | timer
  deriving DecidableEq, Repr

/-- One callback invocation. -/
def step {β : Type} (A : Arithmetic α) (oob : List Int → Option Int) (toFloat : α → β)
    (s : DistanceCalculator α) : Callback α → Except Fault (DistanceCalculator α)
  | Callback.odom x y => Except.ok (OnOdomReceived A s x y)
  | Callback.joy buttons => OnJoyReceived A oob s buttons
  | Callback.timer => Except.ok (PublishDistance toFloat s).1

/-- Run callbacks in order; the first fault ends the run. -/
def run {β : Type} (A : Arithmetic α) (oob : List Int → Option Int) (toFloat : α → β) :
    DistanceCalculator α → List (Callback α) → Except Fault (DistanceCalculator α)
  | s, [] => Except.ok s
  | s, c :: cs =>
    match step A oob toFloat s c with
    | Except.error e => Except.error e
    | Except.ok s1 => run A oob toFloat s1 cs

/-- The values published by `k` consecutive timer ticks. -/
def emissions {β : Type} (toFloat : α → β) : DistanceCalculator α → Nat → List β
  | _, 0 => []
  | s, k + 1 =>
    (PublishDistance toFloat s).2 :: emissions toFloat (PublishDistance toFloat s).1 k

/-- The odometry callbacks of a list carry finite coordinates only. -/
def finiteSamples : List (Callback Fp) → Bool
  | [] => true
  | Callback.odom x y :: cs => x.isFinite && y.isFinite && finiteSamples cs
  | _ :: cs => finiteSamples cs

/-! ### Specification-side definitions -/

/-- Distance between two points as the code's formula evaluates it in the
arithmetic `A`. -/
def euclidFl (A : Arithmetic α) (p q : α × α) : α :=
  A.sqrt (A.add (A.mul (A.sub q.1 p.1) (A.sub q.1 p.1)) (A.mul (A.sub q.2 p.2) (A.sub q.2 p.2)))

/-- The distances between consecutive samples, in the order of the samples. -/
def chordLengths (A : Arithmetic α) (samples : List (α × α)) : List α :=
  (samples.zip samples.tail).map fun pq => euclidFl A pq.1 pq.2

/-- The distances between consecutive samples, added up in the arithmetic `A`
from `0.0` in the order of the samples (the first sample contributes
nothing). -/
def chordSumFl (A : Arithmetic α) (samples : List (α × α)) : α :=
  (chordLengths A samples).foldl A.add A.zero

/-- Straight-line distance between two points in exact arithmetic, as the
specification writes it: `sqrt((x₂-x₁)² + (y₂-y₁)²)`. -/
def euclid [Ring α] (sqrt : α → α) (p q : α × α) : α :=
  sqrt ((q.1 - p.1) ^ 2 + (q.2 - p.2) ^ 2)

/-- Sum of the exact distances between consecutive samples. -/
def chordSum [Ring α] (sqrt : α → α) : List (α × α) → α
  | [] => 0
  | [_] => 0
  | p :: q :: rest => euclid sqrt p q + chordSum sqrt (q :: rest)

/-- The samples received since the most recent reset, oldest first: scanning
the events in order, a sample is appended and a reset empties the collection. -/
def sinceLastReset (evs : List (Event α)) : List (α × α) :=
  evs.foldl
    (fun acc e =>
      match e with
      | Event.sample x y => acc ++ [(x, y)]
      | Event.reset => [])
    []

/-- Relation between the accumulator state and the samples `acc` received
since the last reset: the total is their chord sum and the reference position
is the last of them (none yet when `acc` is empty). -/
def Tracks (A : Arithmetic α) (s : DistanceCalculator α) (acc : List (α × α)) : Prop :=
  s.total_distance_ = chordSumFl A acc ∧
    match acc.getLast? with
    | none => s.initialized_ = false
    | some p => s.initialized_ = true ∧ s.last_x_ = p.1 ∧ s.last_y_ = p.2

/-- What holds of the accumulator after callbacks with finite samples: the total
is a non-negative `double`, and once initialised the reference position is
finite. -/
def Sound (s : DistanceCalculator Fp) : Prop :=
  Fp.NonNeg binary64 s.total_distance_ ∧
    (s.initialized_ = true → s.last_x_.isFinite = true ∧ s.last_y_.isFinite = true)

/-- Every sample event of a list carries finite coordinates. -/
def finiteEvents : List (Event Fp) → Bool
  | [] => true
  | Event.sample x y :: evs => x.isFinite && y.isFinite && finiteEvents evs
  | Event.reset :: evs => finiteEvents evs

end DistanceCalculator

/-! ## Number formats -/

/-- Discarding the fractional part. -/
def truncate (v : ℚ) : Int :=
  v.num.tdiv v.den

/-- Conversion `static_cast<int>(v)` of a `float`: the fractional part is
discarded.  When the truncated value does not fit a 32-bit `int`, or `v` is an
infinity or a NaN, the behaviour is undefined and the code goes on with some
`int`, here `ub v`. -/
def static_cast_int (ub : Fp → Int) : Fp → Int
  | Fp.finite q =>
    if -2147483648 ≤ truncate q ∧ truncate q ≤ 2147483647 then truncate q else ub (Fp.finite q)
  | Fp.negZero => 0
  | v => ub v

/-- Decimal text of an `int` as `operator<<` writes it: a minus sign for a
negative number, then the digits. -/
def intToStr : Int → String
  | Int.ofNat n => Nat.repr n
  | Int.negSucc n => "-" ++ Nat.repr (n + 1)

/-- The last `prec` decimal digits of `m`, most significant first. -/
def fracDigits (prec m : Nat) : List Char :=
  (List.range prec).reverse.map fun i => Nat.digitChar (m / 10 ^ i % 10)

/-- Digits of the magnitude `a` rounded to `prec` decimals, ties to even: the
integer digits, and when `prec` is not zero a point followed by `prec`
digits. -/
def fixedDigits (prec : Nat) (a : ℚ) : String :=
  let m := (roundHalfEven (a * 10 ^ prec)).toNat
  Nat.repr (m / 10 ^ prec) ++ (if prec = 0 then "" else "." ++ String.mk (fracDigits prec m))

/-- Text of a `float` under `std::fixed` with precision `prec`
(`printf("%.*f", prec, v)`): a minus sign when the sign bit is set, then the
digits of a finite value, or `inf`, or `nan`. -/
def fixedPoint (prec : Nat) : Fp → String
  | Fp.finite q => (if q < 0 then "-" else "") ++ fixedDigits prec |q|
  | Fp.negZero => "-" ++ fixedDigits prec 0
  | Fp.inf s => if s then "-inf" else "inf"
  | Fp.nan s => if s then "-nan" else "nan"

/-! ## std::stringstream -/

/-- The part of a `std::stringstream` the rendering uses: the characters
written so far, whether `floatfield` is `fixed`, and the precision. -/
structure StringStream where
  str : String
  floatfield_fixed : Bool
  precision : Nat
  deriving DecidableEq, Repr

namespace StringStream

/-- A freshly constructed stream: empty, `floatfield` unset, precision 6. -/
def fresh : StringStream :=
  ⟨"", false, 6⟩

/-- The manipulator `std::fixed`. -/
def fixed (ss : StringStream) : StringStream :=
  { ss with floatfield_fixed := true }

/-- The manipulator `std::setprecision(n)`. -/
def setprecision (n : Nat) (ss : StringStream) : StringStream :=
  { ss with precision := n }

/-- Insertion of a string literal. -/
def putString (t : String) (ss : StringStream) : StringStream :=
  { ss with str := ss.str ++ t }

/-- Insertion of a `float`.  `general` is the text the library produces when
`floatfield` is not `fixed`. -/
def putFloat (general : Nat → Fp → String) (v : Fp) (ss : StringStream) : StringStream :=
  { ss with
    str := ss.str ++
      (if ss.floatfield_fixed then fixedPoint ss.precision v else general ss.precision v) }

/-- Insertion of an `int`. -/
def putInt (n : Int) (ss : StringStream) : StringStream :=
  { ss with str := ss.str ++ intToStr n }

end StringStream

/-! ## WhillInfoPublisher -/

/-- Data members of the C++ class `WhillInfoPublisher`; `β` is `float`. -/
structure WhillInfoPublisher (β : Type) where
  cmd_vel_speed_ : β
  battery_ : β
  distance_ : β
  state_ : β
  deriving DecidableEq, Repr

/-- Colour of the overlay message. -/
structure ColorRGBA where
  r : ℚ
  g : ℚ
  b : ℚ
  a : ℚ
  deriving DecidableEq, Repr

/-- Display action of the overlay message. -/
inductive OverlayAction where
  | ADD
  | DELETE
  deriving DecidableEq, Repr

/-- The fields of `rviz_2d_overlay_msgs::msg::OverlayText` that
`PublishWhillInfo` sets. -/
structure OverlayText where
  text : String
  width : Nat
  height : Nat
  text_size : ℚ
  line_width : Nat
  font : String
  fg_color : ColorRGBA
  bg_color : ColorRGBA
  action : OverlayAction
  deriving DecidableEq, Repr

namespace WhillInfoPublisher

variable {α β : Type}

/-- The constructor (lines 133-136): all four fields start at 0. -/
def construct [Zero β] : WhillInfoPublisher β :=
  ⟨0, 0, 0, 0⟩

/-- Source lines 144-147: `cmd_vel_speed_ = static_cast<float>(msg->linear.x)`. -/
def OnCmdVelReceived (toFloat : α → β) (s : WhillInfoPublisher β) (linear_x : α) :
    WhillInfoPublisher β :=
  { s with cmd_vel_speed_ := toFloat linear_x }

/-- Source lines 149-152. -/
def OnBatteryReceived (s : WhillInfoPublisher β) (data : β) : WhillInfoPublisher β :=
  { s with battery_ := data }

/-- Source lines 154-157. -/
def OnDistanceReceived (s : WhillInfoPublisher β) (data : β) : WhillInfoPublisher β :=
  { s with distance_ := data }

/-- Source lines 159-162. -/
def OnStateReceived (s : WhillInfoPublisher β) (data : β) : WhillInfoPublisher β :=
  { s with state_ := data }

/-- Source lines 170-185: the text written to the stream, statement by
statement. -/
def overlayText (general : Nat → Fp → String) (ub : Fp → Int) (s : WhillInfoPublisher Fp) :
    String :=
  let ss := StringStream.fresh
  let ss := ss.fixed
  let ss := ((ss.setprecision 2).putString "speed:    ").putFloat general s.cmd_vel_speed_
  let ss := (ss.putString "   battery:  ").putInt (static_cast_int ub s.battery_)
  let ss := ((ss.setprecision 2).putString "   distance: ").putFloat general s.distance_
  let ss := (ss.putString "   state:    ").putInt (static_cast_int ub s.state_)
  ss.str

/-- Source lines 164-205: the message handed to the publisher. -/
def PublishWhillInfo (general : Nat → Fp → String) (ub : Fp → Int)
    (s : WhillInfoPublisher Fp) : OverlayText :=
  { text := overlayText general ub s
    width := 400
    height := 100
    text_size := 12
    line_width := 2
    font := "Arial"
    fg_color := ⟨1, 1, 1, 1⟩
    bg_color := ⟨0, 0, 0, 1 / 2⟩
    action := OverlayAction.ADD }

/-! ### Specification-side definitions -/

/-- Fixed-point text of a rational with exactly two decimal digits, rounded to
nearest with ties to even. -/
def fixed2 (v : ℚ) : String :=
  let m := (roundHalfEven (|v| * 100)).toNat
  (if v < 0 then "-" else "") ++ Nat.repr (m / 100) ++ "."
    ++ String.mk [Nat.digitChar (m / 10 % 10), Nat.digitChar (m % 10)]

/-- Text of a `float` in the display line: two-decimal fixed point for a finite
value, `-0.00` for negative zero, and the words the library prints for an
infinity and a NaN. -/
def floatText : Fp → String
  | Fp.finite q => fixed2 q
  | Fp.negZero => "-0.00"
  | Fp.inf false => "inf"
  | Fp.inf true => "-inf"
  | Fp.nan false => "nan"
  | Fp.nan true => "-nan"

end WhillInfoPublisher


/-! # Theorems -/

/-! ### Rounding -/

theorem pow2_eq (k : Int) : pow2 k = (2 : ℚ) ^ k := by
  unfold pow2
  split_ifs with h
  · obtain ⟨n, rfl⟩ := Int.eq_ofNat_of_zero_le h
    simp
  · obtain ⟨n, hn⟩ : ∃ n : Nat, k = -(n : Int) := ⟨(-k).toNat, by omega⟩
    subst hn
    simp [zpow_neg]

theorem pow2_pos (k : Int) : 0 < pow2 k := by
  rw [pow2_eq]; exact zpow_pos (by norm_num) k

theorem pow2_le_iff (a b : Int) : pow2 a ≤ pow2 b ↔ a ≤ b := by
  rw [pow2_eq, pow2_eq]; exact zpow_le_zpow_iff_right₀ (by norm_num)

theorem pow2_lt_iff (a b : Int) : pow2 a < pow2 b ↔ a < b := by
  rw [pow2_eq, pow2_eq]; exact zpow_lt_zpow_iff_right₀ (by norm_num)

theorem pow2_add (a b : Int) : pow2 (a + b) = pow2 a * pow2 b := by
  rw [pow2_eq, pow2_eq, pow2_eq]; exact zpow_add₀ (by norm_num) a b

theorem pow2_natCast (n : Nat) : pow2 (n : Int) = ((2 ^ n : Nat) : ℚ) := by
  rw [pow2_eq]; simp

theorem floorLog2_eq (fuel : Nat) : ∀ n, n ≤ fuel → floorLog2 fuel n = Nat.log 2 n := by
  induction fuel with
  | zero =>
    intro n hn
    have : n = 0 := by omega
    subst this
    simp [floorLog2]
  | succ fuel ih =>
    intro n hn
    unfold floorLog2
    split_ifs with h
    · exact (Nat.log_of_lt h).symm
    · have h2 : 2 ≤ n := by omega
      have h3 : n / 2 ≤ fuel := by omega
      rw [ih (n / 2) h3]
      exact (Nat.log_of_one_lt_of_le (by norm_num) h2).symm

theorem ilog2_spec (r : ℚ) (hr : r ≠ 0) :
    pow2 (ilog2 r) ≤ |r| ∧ |r| < pow2 (ilog2 r + 1) := by
  have ha : 0 < |r| := abs_pos.mpr hr
  have hnum : 0 < |r|.num := Rat.num_pos.mpr ha
  have hn0 : |r|.num.natAbs ≠ 0 := by omega
  have hd0 : |r|.den ≠ 0 := |r|.den_nz
  have hval : |r| = (|r|.num.natAbs : ℚ) / (|r|.den : ℚ) := by
    have h2 : (|r|.num.natAbs : ℚ) = (|r|.num : ℚ) := by
      rw [Nat.cast_natAbs, abs_of_pos hnum]
    rw [h2, Rat.num_div_den]
  set n := |r|.num.natAbs with hn
  set d := |r|.den with hd
  have hnq : (0 : ℚ) < n := by exact_mod_cast Nat.pos_of_ne_zero hn0
  have hdq : (0 : ℚ) < d := by exact_mod_cast Nat.pos_of_ne_zero hd0
  have hn1 : ((2 ^ Nat.log 2 n : Nat) : ℚ) ≤ n := by exact_mod_cast Nat.pow_log_le_self 2 hn0
  have hn2 : (n : ℚ) < ((2 ^ (Nat.log 2 n + 1) : Nat) : ℚ) := by
    exact_mod_cast Nat.lt_pow_succ_log_self (by norm_num) n
  have hd1 : ((2 ^ Nat.log 2 d : Nat) : ℚ) ≤ d := by exact_mod_cast Nat.pow_log_le_self 2 hd0
  have hd2 : (d : ℚ) < ((2 ^ (Nat.log 2 d + 1) : Nat) : ℚ) := by
    exact_mod_cast Nat.lt_pow_succ_log_self (by norm_num) d
  have hpn : (0 : ℚ) < ((2 ^ Nat.log 2 n : Nat) : ℚ) := by positivity
  have hpd : (0 : ℚ) < ((2 ^ Nat.log 2 d : Nat) : ℚ) := by positivity
  -- the first guess `e0` is off by at most one
  have hlow : pow2 ((Nat.log 2 n : Int) - (Nat.log 2 d : Int) - 1) ≤ |r| := by
    have e : (Nat.log 2 n : Int) - (Nat.log 2 d : Int) - 1
        = (Nat.log 2 n : Int) + -((Nat.log 2 d + 1 : Nat) : Int) := by push_cast; ring
    rw [e, pow2_add, pow2_natCast, pow2_eq, zpow_neg, zpow_natCast, hval, ← div_eq_mul_inv]
    have : (2 : ℚ) ^ (Nat.log 2 d + 1) = ((2 ^ (Nat.log 2 d + 1) : Nat) : ℚ) := by push_cast; rfl
    rw [this]
    exact div_le_div₀ hnq.le hn1 hdq hd2.le
  have hhigh : |r| < pow2 ((Nat.log 2 n : Int) - (Nat.log 2 d : Int) + 1) := by
    have e : (Nat.log 2 n : Int) - (Nat.log 2 d : Int) + 1
        = ((Nat.log 2 n + 1 : Nat) : Int) + -((Nat.log 2 d : Nat) : Int) := by push_cast; ring
    rw [e, pow2_add, pow2_natCast, pow2_eq, zpow_neg, zpow_natCast, hval, ← div_eq_mul_inv]
    have : (2 : ℚ) ^ (Nat.log 2 d) = ((2 ^ (Nat.log 2 d) : Nat) : ℚ) := by push_cast; rfl
    rw [this]
    calc (n : ℚ) / d ≤ n / ((2 ^ Nat.log 2 d : Nat) : ℚ) :=
          div_le_div_of_nonneg_left hnq.le hpd hd1
      _ < ((2 ^ (Nat.log 2 n + 1) : Nat) : ℚ) / ((2 ^ Nat.log 2 d : Nat) : ℚ) :=
          div_lt_div_of_pos_right hn2 hpd
  unfold ilog2
  simp only [← hn, ← hd, floorLog2_eq n n le_rfl, floorLog2_eq d d le_rfl]
  split_ifs with hlt
  · refine ⟨hlow, ?_⟩
    have : (Nat.log 2 n : Int) - (Nat.log 2 d : Int) - 1 + 1
        = (Nat.log 2 n : Int) - (Nat.log 2 d : Int) := by ring
    rw [this]; exact hlt
  · exact ⟨not_lt.mp hlt, hhigh⟩

theorem ilog2_unique (r : ℚ) (k : Int) (h1 : pow2 k ≤ |r|) (h2 : |r| < pow2 (k + 1)) :
    ilog2 r = k := by
  have hr : r ≠ 0 := by
    intro h0
    rw [h0, abs_zero] at h1
    exact absurd (pow2_pos k) (not_lt.mpr h1)
  obtain ⟨s1, s2⟩ := ilog2_spec r hr
  have a : k < ilog2 r + 1 := (pow2_lt_iff _ _).mp (lt_of_le_of_lt h1 s2)
  have b : ilog2 r < k + 1 := (pow2_lt_iff _ _).mp (lt_of_le_of_lt s1 h2)
  omega

theorem ilog2_mono (r s : ℚ) (hr : 0 < r) (hrs : r ≤ s) : ilog2 r ≤ ilog2 s := by
  obtain ⟨r1, _⟩ := ilog2_spec r hr.ne'
  obtain ⟨_, s2⟩ := ilog2_spec s (lt_of_lt_of_le hr hrs).ne'
  rw [abs_of_pos hr] at r1
  rw [abs_of_pos (lt_of_lt_of_le hr hrs)] at s2
  have : ilog2 r < ilog2 s + 1 := (pow2_lt_iff _ _).mp (lt_of_le_of_lt (r1.trans hrs) s2)
  omega

theorem roundHalfEven_intCast (n : Int) : roundHalfEven (n : ℚ) = n := by
  have hfloor : Rat.floor (n : ℚ) = n := by
    show ⌊(n : ℚ)⌋ = n
    exact Int.floor_intCast n
  simp [roundHalfEven, hfloor]

theorem roundHalfEven_mono (q q' : ℚ) (h : q ≤ q') : roundHalfEven q ≤ roundHalfEven q' := by
  have hfloor : ∀ x : ℚ, Rat.floor x = ⌊x⌋ := fun _ => rfl
  have hf : ⌊q⌋ ≤ ⌊q'⌋ := Int.floor_le_floor h
  have a1 : (⌊q⌋ : ℚ) ≤ q := Int.floor_le q
  have a2 : q < (⌊q⌋ : ℚ) + 1 := Int.lt_floor_add_one q
  have b1 : (⌊q'⌋ : ℚ) ≤ q' := Int.floor_le q'
  have b2 : q' < (⌊q'⌋ : ℚ) + 1 := Int.lt_floor_add_one q'
  rcases hf.lt_or_eq with hlt | heq
  · have lo : roundHalfEven q ≤ ⌊q⌋ + 1 := by
      simp only [roundHalfEven, hfloor]; split_ifs <;> omega
    have hi : ⌊q'⌋ ≤ roundHalfEven q' := by
      simp only [roundHalfEven, hfloor]; split_ifs <;> omega
    omega
  · simp only [roundHalfEven, hfloor, ← heq]
    have hq : q - (⌊q⌋ : ℚ) ≤ q' - (⌊q⌋ : ℚ) := by linarith
    split_ifs <;> first | omega | (exfalso; linarith)

theorem roundHalfEven_nonneg (q : ℚ) (h : 0 ≤ q) : 0 ≤ roundHalfEven q := by
  have := roundHalfEven_mono 0 q h
  have h0 : roundHalfEven (0 : ℚ) = 0 := by
    have := roundHalfEven_intCast 0
    simpa using this
  omega

/-- The integer `roundHalfEven` returns is a nearest one. -/
theorem roundHalfEven_near (q : ℚ) : |(roundHalfEven q : ℚ) - q| ≤ 1 / 2 := by
  have hfloor : Rat.floor q = ⌊q⌋ := rfl
  have h1 : (⌊q⌋ : ℚ) ≤ q := Int.floor_le q
  have h2 : q < (⌊q⌋ : ℚ) + 1 := Int.lt_floor_add_one q
  simp only [roundHalfEven, hfloor]
  rw [abs_le]
  split_ifs with ha hb hc
  · constructor <;> linarith
  · push_cast; constructor <;> linarith
  · have : q - (⌊q⌋ : ℚ) = 1 / 2 := le_antisymm (not_lt.mp hb) (not_lt.mp ha)
    constructor <;> linarith
  · have : q - (⌊q⌋ : ℚ) = 1 / 2 := le_antisymm (not_lt.mp hb) (not_lt.mp ha)
    push_cast; constructor <;> linarith

theorem roundHalfEven_tie_even (q : ℚ) (h : q - (⌊q⌋ : ℚ) = 1 / 2) :
    roundHalfEven q % 2 = 0 := by
  have hfloor : Rat.floor q = ⌊q⌋ := rfl
  simp only [roundHalfEven, hfloor, h, lt_self_iff_false, if_false]
  split_ifs with hc
  · exact hc
  · omega

theorem isqrtAux_spec (n : Nat) : ∀ bits r : Nat, r * r ≤ n → n < (r + 2 ^ bits) * (r + 2 ^ bits) →
    isqrtAux n bits r * isqrtAux n bits r ≤ n
      ∧ n < (isqrtAux n bits r + 1) * (isqrtAux n bits r + 1) := by
  intro bits
  induction bits with
  | zero =>
    intro r h1 h2
    simpa [isqrtAux] using ⟨h1, h2⟩
  | succ bits ih =>
    intro r h1 h2
    unfold isqrtAux
    simp only
    split_ifs with hc
    · apply ih _ hc
      have : r + 2 ^ bits + 2 ^ bits = r + 2 ^ (bits + 1) := by rw [pow_succ]; ring
      rw [this]; exact h2
    · exact ih r h1 (not_le.mp hc)

/-- The value of `isqrt` is the integer square root. -/
theorem isqrt_spec (n : Nat) : isqrt n * isqrt n ≤ n ∧ n < (isqrt n + 1) * (isqrt n + 1) := by
  unfold isqrt
  apply isqrtAux_spec n _ 0 (Nat.zero_le _)
  rw [floorLog2_eq n n le_rfl, zero_add, ← pow_add]
  have h1 : n < 2 ^ (Nat.log 2 n + 1) := Nat.lt_pow_succ_log_self (by norm_num) n
  have h2 : Nat.log 2 n + 1 ≤ Nat.log 2 n / 2 + 1 + (Nat.log 2 n / 2 + 1) := by omega
  exact lt_of_lt_of_le h1 (Nat.pow_le_pow_right (by norm_num) h2)

namespace Format

theorem pow2_split (E : Int) (n : Nat) : pow2 E = ((2 ^ n : Nat) : ℚ) * pow2 (E - n) := by
  rw [← pow2_natCast, ← pow2_add]
  congr 1
  ring

theorem ulp_pos (F : Format) (r : ℚ) : 0 < F.ulp r :=
  pow2_pos _

theorem grid_mono (u r r' : ℚ) (hu : 0 < u) (h : r ≤ r') :
    (roundHalfEven (r / u) : ℚ) * u ≤ (roundHalfEven (r' / u) : ℚ) * u := by
  have h1 : r / u ≤ r' / u := div_le_div_of_nonneg_right h hu.le
  have h2 : (roundHalfEven (r / u) : ℚ) ≤ (roundHalfEven (r' / u) : ℚ) := by
    exact_mod_cast roundHalfEven_mono _ _ h1
  exact mul_le_mul_of_nonneg_right h2 hu.le

theorem grid_fix (u : ℚ) (k : Int) (hu : 0 < u) :
    (roundHalfEven ((k : ℚ) * u / u) : ℚ) * u = (k : ℚ) * u := by
  rw [mul_div_assoc, div_self hu.ne', mul_one, roundHalfEven_intCast]

theorem rnd_of_ne (F : Format) (r : ℚ) (hr : r ≠ 0) :
    F.rnd r = (roundHalfEven (r / F.ulp r) : ℚ) * F.ulp r := by
  simp [rnd, hr]

theorem rnd_zero (F : Format) : F.rnd 0 = 0 := by
  simp [rnd]

theorem rnd_nonneg (F : Format) (r : ℚ) (hr : 0 ≤ r) : 0 ≤ F.rnd r := by
  rcases hr.lt_or_eq with h | h
  · rw [rnd_of_ne F r h.ne']
    have : 0 ≤ roundHalfEven (r / F.ulp r) :=
      roundHalfEven_nonneg _ (div_nonneg hr (F.ulp_pos r).le)
    have hq : (0 : ℚ) ≤ (roundHalfEven (r / F.ulp r) : ℚ) := by exact_mod_cast this
    exact mul_nonneg hq (F.ulp_pos r).le
  · rw [← h, rnd_zero]

/-- The exponent of the binade whose spacing `r` is rounded with. -/
theorem ulp_def (F : Format) (r : ℚ) :
    F.ulp r = pow2 (max (ilog2 r) F.emin - ((F.prec : Int) - 1)) := rfl

theorem pow2_top (F : Format) (E : Int) :
    pow2 (E + 1) = ((2 ^ F.prec : Nat) : ℚ) * pow2 (E - ((F.prec : Int) - 1)) := by
  rw [pow2_split (E + 1) F.prec]
  congr 2
  ring

theorem pow2_bottom (F : Format) (hp : 1 ≤ F.prec) (E : Int) :
    pow2 E = ((2 ^ (F.prec - 1) : Nat) : ℚ) * pow2 (E - ((F.prec : Int) - 1)) := by
  rw [pow2_split E (F.prec - 1)]
  congr 2
  have : ((F.prec - 1 : Nat) : Int) = (F.prec : Int) - 1 := by omega
  rw [this]

theorem rnd_upper (F : Format) (r : ℚ) (hr : 0 < r) :
    F.rnd r ≤ pow2 (max (ilog2 r) F.emin + 1) := by
  obtain ⟨_, s2⟩ := ilog2_spec r hr.ne'
  rw [abs_of_pos hr] at s2
  have hle : r ≤ pow2 (max (ilog2 r) F.emin + 1) :=
    s2.le.trans ((pow2_le_iff _ _).mpr (by have := le_max_left (ilog2 r) F.emin; omega))
  rw [rnd_of_ne F r hr.ne', ulp_def]
  have hfix := grid_fix (pow2 (max (ilog2 r) F.emin - ((F.prec : Int) - 1)))
    ((2 ^ F.prec : Nat) : Int) (pow2_pos _)
  have htop := pow2_top F (max (ilog2 r) F.emin)
  have hcast : (((2 ^ F.prec : Nat) : Int) : ℚ) = ((2 ^ F.prec : Nat) : ℚ) := by norm_cast
  rw [hcast, ← htop] at hfix
  calc _ ≤ (roundHalfEven (pow2 (max (ilog2 r) F.emin + 1)
            / pow2 (max (ilog2 r) F.emin - ((F.prec : Int) - 1))) : ℚ)
            * pow2 (max (ilog2 r) F.emin - ((F.prec : Int) - 1)) :=
        grid_mono _ _ _ (pow2_pos _) hle
    _ = pow2 (max (ilog2 r) F.emin + 1) := hfix

theorem rnd_lower (F : Format) (hp : 1 ≤ F.prec) (r : ℚ) (hr : 0 < r)
    (hE : F.emin < max (ilog2 r) F.emin) :
    pow2 (max (ilog2 r) F.emin) ≤ F.rnd r := by
  obtain ⟨s1, _⟩ := ilog2_spec r hr.ne'
  rw [abs_of_pos hr] at s1
  have hmax : max (ilog2 r) F.emin = ilog2 r := by
    rcases max_cases (ilog2 r) F.emin with ⟨h, _⟩ | ⟨h, _⟩
    · exact h
    · omega
  have hle : pow2 (max (ilog2 r) F.emin) ≤ r := by rw [hmax]; exact s1
  rw [rnd_of_ne F r hr.ne', ulp_def]
  have hfix := grid_fix (pow2 (max (ilog2 r) F.emin - ((F.prec : Int) - 1)))
    ((2 ^ (F.prec - 1) : Nat) : Int) (pow2_pos _)
  have hbot := pow2_bottom F hp (max (ilog2 r) F.emin)
  have hcast : (((2 ^ (F.prec - 1) : Nat) : Int) : ℚ) = ((2 ^ (F.prec - 1) : Nat) : ℚ) := by
    norm_cast
  rw [hcast, ← hbot] at hfix
  calc pow2 (max (ilog2 r) F.emin)
      = (roundHalfEven (pow2 (max (ilog2 r) F.emin)
            / pow2 (max (ilog2 r) F.emin - ((F.prec : Int) - 1))) : ℚ)
            * pow2 (max (ilog2 r) F.emin - ((F.prec : Int) - 1)) := hfix.symm
    _ ≤ _ := grid_mono _ _ _ (pow2_pos _) hle

theorem max_ilog2_of_bounds (F : Format) (y : ℚ) (E : Int) (hy : 0 < y) (hE : F.emin ≤ E)
    (hhi : y < pow2 (E + 1)) (hlo : F.emin < E → pow2 E ≤ y) :
    max (ilog2 y) F.emin = E := by
  obtain ⟨s1, s2⟩ := ilog2_spec y hy.ne'
  rw [abs_of_pos hy] at s1 s2
  have h1 : ilog2 y < E + 1 := (pow2_lt_iff _ _).mp (lt_of_le_of_lt s1 hhi)
  rcases hE.lt_or_eq with hlt | heq
  · have h2 : E < ilog2 y + 1 := (pow2_lt_iff _ _).mp (lt_of_le_of_lt (hlo hlt) s2)
    have : ilog2 y = E := by omega
    rw [this]; exact max_eq_left hE
  · rw [← heq]; exact max_eq_right (by omega)

theorem rnd_idem (F : Format) (hp : 1 ≤ F.prec) (r : ℚ) (hr : 0 < r) :
    F.rnd (F.rnd r) = F.rnd r := by
  have hy0 : 0 ≤ F.rnd r := rnd_nonneg F r hr.le
  rcases hy0.lt_or_eq with hpos | hzero
  swap
  · rw [← hzero, rnd_zero]
  have hup := rnd_upper F r hr
  have hEmin : F.emin ≤ max (ilog2 r) F.emin := le_max_right _ _
  obtain ⟨n, hn⟩ : ∃ n : Int, F.rnd r = (n : ℚ) * pow2 (max (ilog2 r) F.emin - ((F.prec : Int) - 1)) :=
    ⟨_, rnd_of_ne F r hr.ne'⟩
  rcases hup.lt_or_eq with hlt | heq
  · have hmax := max_ilog2_of_bounds F (F.rnd r) _ hpos hEmin hlt (fun h => rnd_lower F hp r hr h)
    rw [rnd_of_ne F (F.rnd r) hpos.ne', ulp_def, hmax]
    nth_rewrite 1 [hn]
    rw [grid_fix _ _ (pow2_pos _), ← hn]
  · have hlog : ilog2 (F.rnd r) = max (ilog2 r) F.emin + 1 := by
      apply ilog2_unique
      · rw [abs_of_pos hpos, heq]
      · rw [abs_of_pos hpos, heq]; exact (pow2_lt_iff _ _).mpr (by omega)
    have hmax : max (ilog2 (F.rnd r)) F.emin = max (ilog2 r) F.emin + 1 := by
      rw [hlog]; exact max_eq_left (by omega)
    rw [rnd_of_ne F (F.rnd r) hpos.ne', ulp_def, hmax]
    have hb := pow2_bottom F hp (max (ilog2 r) F.emin + 1)
    have hcast : (((2 ^ (F.prec - 1) : Nat) : Int) : ℚ) = ((2 ^ (F.prec - 1) : Nat) : ℚ) := by
      norm_cast
    have hfix := grid_fix (pow2 (max (ilog2 r) F.emin + 1 - ((F.prec : Int) - 1)))
      ((2 ^ (F.prec - 1) : Nat) : Int) (pow2_pos _)
    rw [hcast, ← hb, ← heq] at hfix
    exact hfix

theorem rnd_mono (F : Format) (hp : 1 ≤ F.prec) (r r' : ℚ) (hr : 0 ≤ r) (h : r ≤ r') :
    F.rnd r ≤ F.rnd r' := by
  rcases hr.lt_or_eq with hpos | hzero
  swap
  · rw [← hzero, rnd_zero]; exact rnd_nonneg F r' (hr.trans h)
  have hpos' : 0 < r' := lt_of_lt_of_le hpos h
  have hE : max (ilog2 r) F.emin ≤ max (ilog2 r') F.emin :=
    max_le_max (ilog2_mono r r' hpos h) le_rfl
  rcases hE.lt_or_eq with hlt | heq
  · have hmin : F.emin < max (ilog2 r') F.emin := by
      have := le_max_right (ilog2 r) F.emin; omega
    calc F.rnd r ≤ pow2 (max (ilog2 r) F.emin + 1) := rnd_upper F r hpos
      _ ≤ pow2 (max (ilog2 r') F.emin) := (pow2_le_iff _ _).mpr (by omega)
      _ ≤ F.rnd r' := rnd_lower F hp r' hpos' hmin
  · rw [rnd_of_ne F r hpos.ne', rnd_of_ne F r' hpos'.ne', ulp_def, ulp_def, heq]
    exact grid_mono _ _ _ (pow2_pos _) h

/-- Rounding moves a value by at most half the spacing. -/
theorem rnd_near (F : Format) (r : ℚ) : |F.rnd r - r| ≤ F.ulp r / 2 := by
  by_cases hr : r = 0
  · rw [hr, rnd_zero]; simp; exact div_nonneg (F.ulp_pos 0).le (by norm_num)
  · rw [rnd_of_ne F r hr]
    have hu := F.ulp_pos r
    have h := roundHalfEven_near (r / F.ulp r)
    have e : (roundHalfEven (r / F.ulp r) : ℚ) * F.ulp r - r
        = ((roundHalfEven (r / F.ulp r) : ℚ) - r / F.ulp r) * F.ulp r := by
      field_simp
    rw [e, abs_mul, abs_of_pos hu]
    calc |(roundHalfEven (r / F.ulp r) : ℚ) - r / F.ulp r| * F.ulp r
        ≤ 1 / 2 * F.ulp r := mul_le_mul_of_nonneg_right h hu.le
      _ = F.ulp r / 2 := by ring

end Format

namespace Fp

theorem round_zero (F : Format) : F.round 0 = finite 0 := by
  have h : ¬ pow2 (F.emax + 1) ≤ 0 := not_le.mpr (pow2_pos _)
  simp [Format.round, Format.rnd_zero, Format.deliver, h]

theorem deliver_nonneg (F : Format) (y : ℚ) :
    F.deliver false y = inf false
      ∨ (F.deliver false y = finite y ∧ ¬ pow2 (F.emax + 1) ≤ |y|) := by
  by_cases h1 : pow2 (F.emax + 1) ≤ |y|
  · left; simp [Format.deliver, h1]
  · right
    refine ⟨?_, h1⟩
    by_cases h2 : y = 0
    · simp [Format.deliver, h2, pow2_pos]
    · simp [Format.deliver, h1, h2]

theorem round_of_nonneg (F : Format) (r : ℚ) (hr : 0 ≤ r) :
    F.round r = F.deliver false (F.rnd r) := by
  have : decide (r < 0) = false := decide_eq_false (not_lt.mpr hr)
  rw [Format.round, this]

theorem round_nonneg (F : Format) (hp : 1 ≤ F.prec) (r : ℚ) (hr : 0 ≤ r) :
    NonNeg F (F.round r) := by
  have hy : 0 ≤ F.rnd r := Format.rnd_nonneg F r hr
  rw [round_of_nonneg F r hr]
  rcases deliver_nonneg F (F.rnd r) with h | ⟨h, hno⟩
  · exact Or.inl h
  · refine Or.inr ⟨F.rnd r, h, hy, ?_⟩
    rw [round_of_nonneg F _ hy]
    have hidem : F.rnd (F.rnd r) = F.rnd r := by
      rcases hr.lt_or_eq with hpos | hzero
      · exact Format.rnd_idem F hp r hpos
      · rw [← hzero, Format.rnd_zero, Format.rnd_zero]
    rw [hidem]; exact h

theorem round_leb (F : Format) (hp : 1 ≤ F.prec) (r r' : ℚ) (hr : 0 ≤ r) (h : r ≤ r') :
    leb (F.round r) (F.round r') = true := by
  have hy : 0 ≤ F.rnd r := Format.rnd_nonneg F r hr
  have hy' : 0 ≤ F.rnd r' := Format.rnd_nonneg F r' (hr.trans h)
  have hmono : F.rnd r ≤ F.rnd r' := Format.rnd_mono F hp r r' hr h
  rw [round_of_nonneg F r hr, round_of_nonneg F r' (hr.trans h)]
  rcases deliver_nonneg F (F.rnd r') with h2 | ⟨h2, hno2⟩
  · rw [h2]
    rcases deliver_nonneg F (F.rnd r) with h1 | ⟨h1, _⟩ <;> rw [h1] <;> rfl
  · rw [h2]
    rcases deliver_nonneg F (F.rnd r) with h1 | ⟨h1, _⟩
    · exfalso
      have hov : pow2 (F.emax + 1) ≤ |F.rnd r| := by
        by_contra hc
        simp [Format.deliver, hc] at h1
        split_ifs at h1
      rw [abs_of_nonneg hy] at hov
      rw [abs_of_nonneg hy'] at hno2
      exact hno2 (hov.trans hmono)
    · rw [h1]
      simp [leb, toRat, hmono]

theorem nonNeg_zero_leb (F : Format) (v : Fp) (h : NonNeg F v) : leb (finite 0) v = true := by
  rcases h with h | ⟨y, h, hy, _⟩
  · rw [h]; rfl
  · rw [h]; simp [leb, toRat, hy]

theorem nonNeg_finite_zero (F : Format) : NonNeg F (finite 0) :=
  Or.inr ⟨0, rfl, le_rfl, round_zero F⟩

theorem nonNeg_add (F : Format) (hp : 1 ≤ F.prec) (a b : Fp) (ha : NonNeg F a)
    (hb : NonNeg F b) : NonNeg F (add F a b) ∧ leb a (add F a b) = true := by
  rcases ha with ha | ⟨t, ha, ht, hrt⟩ <;> rcases hb with hb | ⟨c, hb, hc, _⟩ <;> subst ha hb
  · exact ⟨Or.inl rfl, rfl⟩
  · exact ⟨Or.inl rfl, rfl⟩
  · exact ⟨Or.inl rfl, rfl⟩
  · have hadd : add F (finite t) (finite c) = F.round (t + c) := rfl
    rw [hadd]
    refine ⟨round_nonneg F hp _ (add_nonneg ht hc), ?_⟩
    have := round_leb F hp t (t + c) ht (by linarith)
    rw [hrt] at this
    exact this

theorem mul_self_cases (F : Format) (hp : 1 ≤ F.prec) (a : Fp) :
    (a.isNaN = true ∧ mul F a a = a) ∨ (a.isNaN = false ∧ NonNeg F (mul F a a)) := by
  cases a with
  | nan s => exact Or.inl ⟨rfl, rfl⟩
  | inf s =>
    right
    refine ⟨rfl, Or.inl ?_⟩
    cases s <;> rfl
  | negZero =>
    right
    refine ⟨rfl, ?_⟩
    have : mul F negZero negZero = finite 0 := by simp [mul, toRat, signBit]
    rw [this]; exact nonNeg_finite_zero F
  | finite q =>
    right
    refine ⟨rfl, ?_⟩
    by_cases hq : q = 0
    · have : mul F (finite q) (finite q) = finite 0 := by simp [mul, toRat, signBit, hq]
      rw [this]; exact nonNeg_finite_zero F
    · have : mul F (finite q) (finite q) = F.round (q * q) := by simp [mul, toRat, hq]
      rw [this]; exact round_nonneg F hp _ (mul_self_nonneg q)

theorem sqrtRnd_nonneg (F : Format) (q : ℚ) : 0 ≤ F.sqrtRnd q := by
  unfold Format.sqrtRnd
  exact mul_nonneg (Nat.cast_nonneg _) (pow2_pos _).le

theorem nonNeg_sqrt (F : Format) (hp : 1 ≤ F.prec) (a : Fp) (ha : NonNeg F a) :
    NonNeg F (sqrt F a) := by
  rcases ha with ha | ⟨y, ha, hy, _⟩ <;> subst ha
  · exact Or.inl rfl
  · rcases hy.lt_or_eq with hpos | hzero
    · have : sqrt F (finite y) = F.round (F.sqrtRnd y) := by
        simp [sqrt, not_lt.mpr hy, hpos.ne']
      rw [this]; exact round_nonneg F hp _ (sqrtRnd_nonneg F y)
    · subst hzero
      have : sqrt F (finite 0) = finite 0 := by simp [sqrt]
      rw [this]; exact nonNeg_finite_zero F

theorem sqrt_nan (F : Format) (s : Bool) : sqrt F (nan s) = nan s := rfl

theorem isFinite_neg (a : Fp) (ha : a.isFinite = true) : (neg a).isFinite = true := by
  cases a with
  | finite q =>
    by_cases hq : q = 0
    · simp [neg, hq, isFinite]
    · simp [neg, hq, isFinite]
  | negZero => rfl
  | inf s => exact Bool.noConfusion ha
  | nan s => exact Bool.noConfusion ha

theorem deliver_not_nan (F : Format) (n : Bool) (y : ℚ) : (F.deliver n y).isNaN = false := by
  unfold Format.deliver
  split_ifs <;> rfl

theorem add_isFinite_not_nan (F : Format) (a b : Fp) (ha : a.isFinite = true)
    (hb : b.isFinite = true) : (add F a b).isNaN = false := by
  cases a <;> cases b <;>
    first
    | exact Bool.noConfusion ha
    | exact Bool.noConfusion hb
    | rfl
    | exact deliver_not_nan F _ _

theorem sub_isFinite_not_nan (F : Format) (a b : Fp) (ha : a.isFinite = true)
    (hb : b.isFinite = true) : (sub F a b).isNaN = false := by
  have h : sub F a b = add F a (neg b) := by
    cases a <;> cases b <;>
      first | rfl | exact Bool.noConfusion ha | exact Bool.noConfusion hb
  rw [h]
  exact add_isFinite_not_nan F a (neg b) ha (isFinite_neg b hb)

theorem sub_self_finite (F : Format) (a : Fp) (ha : a.isFinite = true) :
    sub F a a = finite 0 := by
  cases a with
  | finite q =>
    have h1 : sub F (finite q) (finite q) = Fp.add F (finite q) (neg (finite q)) := rfl
    by_cases hq : q = 0
    · have h2 : neg (finite q) = negZero := by simp [neg, hq]
      have h3 : Fp.add F (finite q) negZero = F.round (q + 0) := rfl
      rw [h1, h2, h3, hq, add_zero, round_zero]
    · have h2 : neg (finite q) = finite (-q) := by simp [neg, hq]
      have h3 : Fp.add F (finite q) (finite (-q)) = F.round (q + -q) := rfl
      rw [h1, h2, h3, add_neg_cancel, round_zero]
  | negZero =>
    have h1 : sub F negZero negZero = F.round (0 + 0) := rfl
    rw [h1, add_zero, round_zero]
  | inf s => exact Bool.noConfusion ha
  | nan s => exact Bool.noConfusion ha

end Fp

namespace DistanceCalculator

/-! ### Path length -/

theorem OnOdomReceived_uninitialized {α : Type} (A : Arithmetic α) (s : DistanceCalculator α)
    (x y : α) (h : s.initialized_ = false) :
    OnOdomReceived A s x y
      = ⟨A.add s.total_distance_ (euclidFl A (x, y) (x, y)), x, y, true⟩ := by
  simp [OnOdomReceived, h, euclidFl]

theorem OnOdomReceived_initialized {α : Type} (A : Arithmetic α) (s : DistanceCalculator α)
    (x y : α) (h : s.initialized_ = true) :
    OnOdomReceived A s x y
      = ⟨A.add s.total_distance_ (euclidFl A (s.last_x_, s.last_y_) (x, y)), x, y, true⟩ := by
  simp [OnOdomReceived, h, euclidFl]

theorem chordLengths_cons_cons {α : Type} (A : Arithmetic α) (p q : α × α)
    (rest : List (α × α)) :
    chordLengths A (p :: q :: rest) = euclidFl A p q :: chordLengths A (q :: rest) := by
  simp [chordLengths]

theorem chordLengths_singleton {α : Type} (A : Arithmetic α) (p : α × α) :
    chordLengths A [p] = [] := by
  simp [chordLengths]

theorem feed_initialized {α : Type} (A : Arithmetic α) (qs : List (α × α)) :
    ∀ s : DistanceCalculator α, s.initialized_ = true →
      (feed A s qs).total_distance_ =
        (chordLengths A ((s.last_x_, s.last_y_) :: qs)).foldl A.add s.total_distance_ := by
  induction qs with
  | nil => intro s _; simp [feed, chordLengths_singleton]
  | cons q qs ih =>
    intro s h
    have hstep : feed A s (q :: qs) = feed A (OnOdomReceived A s q.1 q.2) qs := rfl
    rw [hstep, OnOdomReceived_initialized A s q.1 q.2 h, ih _ rfl, chordLengths_cons_cons]
    rfl

theorem double_prec : 1 ≤ binary64.prec := by decide

theorem euclidFl_self (x y : Fp) (hx : x.isFinite = true) (hy : y.isFinite = true) :
    euclidFl double (x, y) (x, y) = Fp.finite 0 := by
  have h1 : double.sub x x = Fp.finite 0 := Fp.sub_self_finite binary64 x hx
  have h2 : double.sub y y = Fp.finite 0 := Fp.sub_self_finite binary64 y hy
  simp only [euclidFl, h1, h2]
  decide!

theorem double_zero_add_zero : double.add (Fp.finite 0) (Fp.finite 0) = Fp.finite 0 := by
  decide!

theorem first_sample (s : DistanceCalculator Fp) (x y : Fp) (hx : x.isFinite = true)
    (hy : y.isFinite = true) (hinit : s.initialized_ = false)
    (htot : s.total_distance_ = Fp.finite 0) :
    OnOdomReceived double s x y = ⟨Fp.finite 0, x, y, true⟩ := by
  rw [OnOdomReceived_uninitialized double s x y hinit, euclidFl_self x y hx hy, htot,
    double_zero_add_zero]

theorem feed_construct (raw : DistanceCalculator Fp) (p : Fp × Fp) (ps : List (Fp × Fp))
    (hx : p.1.isFinite = true) (hy : p.2.isFinite = true) :
    (feed double (construct double raw) (p :: ps)).total_distance_
      = chordSumFl double (p :: ps) := by
  have hstep : feed double (construct double raw) (p :: ps)
      = feed double (OnOdomReceived double (construct double raw) p.1 p.2) ps := rfl
  rw [hstep, first_sample _ p.1 p.2 hx hy rfl rfl, feed_initialized double ps _ rfl]
  rfl

/-- C1 (amended): from the constructed state, after a non-empty sequence of
samples with a finite first sample and no reset, the total is the sum of the
distances between consecutive samples as `double` arithmetic evaluates them,
added from 0.0 in the order of the samples; one finite sample gives 0; the
samples (0,0), (3,4), (3,4) give 5. -/
theorem C1_total_is_rounded_chord_sum (raw : DistanceCalculator Fp) (p : Fp × Fp)
    (ps : List (Fp × Fp)) (hx : p.1.isFinite = true) (hy : p.2.isFinite = true) :
    (feed double (construct double raw) (p :: ps)).total_distance_
        = chordSumFl double (p :: ps)
      ∧ (feed double (construct double raw) [p]).total_distance_ = Fp.finite 0
      ∧ (feed double (construct double raw)
          [(Fp.finite 0, Fp.finite 0), (Fp.finite 3, Fp.finite 4),
            (Fp.finite 3, Fp.finite 4)]).total_distance_ = Fp.finite 5 := by
  refine ⟨feed_construct raw p ps hx hy, ?_, ?_⟩
  · rw [feed_construct raw p [] hx hy]; rfl
  · rw [feed_construct raw (Fp.finite 0, Fp.finite 0)
      [(Fp.finite 3, Fp.finite 4), (Fp.finite 3, Fp.finite 4)] rfl rfl]
    decide!

/-- Two samples, the first finite: the total is the rounded distance between
them, here 5. -/
theorem C1_total_is_rounded_chord_sum_witness :
    (feed double (construct double ⟨Fp.nan false, Fp.inf true, Fp.finite 2, true⟩)
        [(Fp.finite 0, Fp.finite 0), (Fp.finite 3, Fp.finite 4)]).total_distance_
      = chordSumFl double [(Fp.finite 0, Fp.finite 0), (Fp.finite 3, Fp.finite 4)] :=
  (C1_total_is_rounded_chord_sum ⟨Fp.nan false, Fp.inf true, Fp.finite 2, true⟩
    (Fp.finite 0, Fp.finite 0) [(Fp.finite 3, Fp.finite 4)] rfl rfl).1

/-- C1 as stated fails: after the samples (0,0), (2^53,0), (2^53-1,0) the total is
2^53 while the distances between consecutive samples add up to 2^53+1; and after
the single sample (inf, 0) the total is a NaN, not 0. -/
theorem C1_total_not_exact_chord_sum :
    (feed double (construct double ⟨Fp.finite 0, Fp.finite 0, Fp.finite 0, false⟩)
        [(Fp.finite 0, Fp.finite 0), (Fp.finite 9007199254740992, Fp.finite 0),
          (Fp.finite 9007199254740991, Fp.finite 0)]).total_distance_
        = Fp.finite 9007199254740992
      ∧ chordSum Real.sqrt
          [((0 : ℝ), (0 : ℝ)), (9007199254740992, 0), (9007199254740991, 0)]
        = 9007199254740993
      ∧ (feed double (construct double ⟨Fp.finite 0, Fp.finite 0, Fp.finite 0, false⟩)
          [(Fp.inf false, Fp.finite 0)]).total_distance_ = Fp.nan true := by
  refine ⟨by decide!, ?_, by decide!⟩
  have h1 : Real.sqrt ((9007199254740992 : ℝ) ^ 2) = 9007199254740992 :=
    Real.sqrt_sq (by norm_num)
  have h2 : Real.sqrt (((9007199254740991 : ℝ) - 9007199254740992) ^ 2) = 1 := by
    rw [show ((9007199254740991 : ℝ) - 9007199254740992) ^ 2 = 1 ^ 2 by norm_num]
    exact Real.sqrt_sq (by norm_num)
  simp only [chordSum, euclid, sub_zero, sub_self, ne_eq, OfNat.ofNat_ne_zero, not_false_eq_true,
    zero_pow, add_zero, h1, h2]
  norm_num

/-! ### Resets -/

theorem sinceLastReset_snoc {α : Type} (evs : List (Event α)) (e : Event α) :
    sinceLastReset (evs ++ [e]) =
      match e with
      | Event.sample x y => sinceLastReset evs ++ [(x, y)]
      | Event.reset => [] := by
  cases e <;> simp only [sinceLastReset, List.foldl_append, List.foldl_cons, List.foldl_nil]

theorem chordLengths_snoc {α : Type} (A : Arithmetic α) (acc : List (α × α)) (p q : α × α) :
    chordLengths A ((acc ++ [p]) ++ [q]) = chordLengths A (acc ++ [p]) ++ [euclidFl A p q] := by
  induction acc with
  | nil => simp [chordLengths]
  | cons a acc ih =>
    cases acc with
    | nil => simp [chordLengths]
    | cons b acc =>
      simp only [List.cons_append] at ih ⊢
      rw [chordLengths_cons_cons, chordLengths_cons_cons, ih]
      rfl

theorem chordSumFl_snoc {α : Type} (A : Arithmetic α) (acc : List (α × α)) (p q : α × α) :
    chordSumFl A ((acc ++ [p]) ++ [q])
      = A.add (chordSumFl A (acc ++ [p])) (euclidFl A p q) := by
  simp only [chordSumFl, chordLengths_snoc, List.foldl_append, List.foldl_cons, List.foldl_nil]

theorem finiteEvents_append (evs : List (Event Fp)) (e : Event Fp)
    (h : finiteEvents (evs ++ [e]) = true) :
    finiteEvents evs = true ∧ finiteEvents [e] = true := by
  induction evs with
  | nil => exact ⟨rfl, by simpa using h⟩
  | cons a evs ih =>
    cases a with
    | reset =>
      simp only [List.cons_append, finiteEvents] at h ⊢
      exact ih h
    | sample x y =>
      simp only [List.cons_append, finiteEvents, Bool.and_eq_true] at h ⊢
      exact ⟨⟨h.1, (ih h.2).1⟩, (ih h.2).2⟩

theorem runEvents_tracks (raw : DistanceCalculator Fp) (evs : List (Event Fp))
    (hfin : finiteEvents evs = true) :
    Tracks double (runEvents double (construct double raw) evs) (sinceLastReset evs) := by
  induction evs using List.reverseRecOn with
  | nil => simp [Tracks, runEvents, construct, reset_distance, sinceLastReset, chordSumFl,
      chordLengths]
  | append_singleton evs e ih =>
    obtain ⟨hfin1, hfin2⟩ := finiteEvents_append evs e hfin
    have hrun : runEvents double (construct double raw) (evs ++ [e])
        = applyEvent double (runEvents double (construct double raw) evs) e := by
      simp [runEvents, List.foldl_append]
    rw [hrun, sinceLastReset_snoc]
    cases e with
    | reset => simp [Tracks, applyEvent, reset_distance, chordSumFl, chordLengths]
    | sample x y =>
      simp only [finiteEvents, Bool.and_true, Bool.and_eq_true] at hfin2
      obtain ⟨htot, hlast⟩ := ih hfin1
      rcases List.eq_nil_or_concat (sinceLastReset evs) with hnil | ⟨acc, p, hacc⟩
      · rw [hnil] at htot hlast ⊢
        simp only [List.getLast?_nil] at hlast
        have h0 : (runEvents double (construct double raw) evs).total_distance_ = Fp.finite 0 := by
          rw [htot]; rfl
        simp only [applyEvent, first_sample _ x y hfin2.1 hfin2.2 hlast h0]
        simp [Tracks, chordSumFl, chordLengths_singleton]
        rfl
      · rw [hacc] at htot hlast ⊢
        simp at hlast
        obtain ⟨hinit, hx, hy⟩ := hlast
        simp only [applyEvent, OnOdomReceived_initialized _ _ _ _ hinit]
        refine ⟨?_, ?_⟩
        · simp only [List.concat_eq_append] at htot ⊢
          rw [chordSumFl_snoc, htot, hx, hy]
        · simp

/-- C2 (amended): a reset followed by a finite sample gives total 0, reference
position the sample and initialized; after any events with finite samples from
the constructed state the total is the chord sum, in `double` arithmetic, of the
samples since the last reset; the events (0,0), (1,0), reset, (5,5), (5,6) give
totals 1, 0, 0 and 1. -/
theorem C2_reset_then_sample (s raw : DistanceCalculator Fp) (x y : Fp)
    (evs : List (Event Fp)) (hx : x.isFinite = true) (hy : y.isFinite = true)
    (hevs : finiteEvents evs = true) :
    OnOdomReceived double (reset_distance double s) x y = ⟨Fp.finite 0, x, y, true⟩
      ∧ (runEvents double (construct double raw) evs).total_distance_
          = chordSumFl double (sinceLastReset evs)
      ∧ (runEvents double (construct double raw)
            [Event.sample (Fp.finite 0) (Fp.finite 0),
              Event.sample (Fp.finite 1) (Fp.finite 0)]).total_distance_ = Fp.finite 1
      ∧ (runEvents double (construct double raw)
            [Event.sample (Fp.finite 0) (Fp.finite 0),
              Event.sample (Fp.finite 1) (Fp.finite 0), Event.reset]).total_distance_
          = Fp.finite 0
      ∧ (runEvents double (construct double raw)
            [Event.sample (Fp.finite 0) (Fp.finite 0),
              Event.sample (Fp.finite 1) (Fp.finite 0), Event.reset,
              Event.sample (Fp.finite 5) (Fp.finite 5)]).total_distance_ = Fp.finite 0
      ∧ (runEvents double (construct double raw)
            [Event.sample (Fp.finite 0) (Fp.finite 0),
              Event.sample (Fp.finite 1) (Fp.finite 0), Event.reset,
              Event.sample (Fp.finite 5) (Fp.finite 5),
              Event.sample (Fp.finite 5) (Fp.finite 6)]).total_distance_ = Fp.finite 1 := by
  refine ⟨first_sample _ x y hx hy rfl rfl, (runEvents_tracks raw evs hevs).1, ?_, ?_, ?_, ?_⟩
  · refine Eq.trans (runEvents_tracks raw _ ?_).1 ?_
    · rfl
    · decide!
  · refine Eq.trans (runEvents_tracks raw _ ?_).1 ?_
    · rfl
    · decide!
  · refine Eq.trans (runEvents_tracks raw _ ?_).1 ?_
    · rfl
    · decide!
  · refine Eq.trans (runEvents_tracks raw _ ?_).1 ?_
    · rfl
    · decide!

/-- A reset on a state with total 7 followed by the sample (5,5), and the events
(0,0), (1,0), reset, (5,5), (5,6). -/
theorem C2_reset_then_sample_witness :
    OnOdomReceived double
        (reset_distance double ⟨Fp.finite 7, Fp.finite 1, Fp.finite 2, true⟩)
        (Fp.finite 5) (Fp.finite 5)
      = ⟨Fp.finite 0, Fp.finite 5, Fp.finite 5, true⟩ :=
  (C2_reset_then_sample ⟨Fp.finite 7, Fp.finite 1, Fp.finite 2, true⟩
    ⟨Fp.finite 7, Fp.finite 1, Fp.finite 2, true⟩ (Fp.finite 5) (Fp.finite 5)
    [Event.sample (Fp.finite 0) (Fp.finite 0), Event.sample (Fp.finite 1) (Fp.finite 0),
      Event.reset, Event.sample (Fp.finite 5) (Fp.finite 5),
      Event.sample (Fp.finite 5) (Fp.finite 6)] rfl rfl rfl).1

/-- C2 as stated fails: a reset followed by the sample (inf, 0) leaves a NaN
total, not 0; and after (0,0), (1,0), reset, (0,0), (2^53,0), (2^53-1,0) the total
is 2^53 while the distances between the samples since the reset add up to
2^53+1. -/
theorem C2_reset_then_sample_not_exact :
    (OnOdomReceived double
        (reset_distance double ⟨Fp.finite 7, Fp.finite 1, Fp.finite 2, true⟩)
        (Fp.inf false) (Fp.finite 0)).total_distance_ = Fp.nan true
      ∧ (runEvents double (construct double ⟨Fp.finite 0, Fp.finite 0, Fp.finite 0, false⟩)
          [Event.sample (Fp.finite 0) (Fp.finite 0), Event.sample (Fp.finite 1) (Fp.finite 0),
            Event.reset, Event.sample (Fp.finite 0) (Fp.finite 0),
            Event.sample (Fp.finite 9007199254740992) (Fp.finite 0),
            Event.sample (Fp.finite 9007199254740991) (Fp.finite 0)]).total_distance_
        = Fp.finite 9007199254740992
      ∧ chordSum Real.sqrt
          (sinceLastReset
            [Event.sample (0 : ℝ) 0, Event.sample 1 0, Event.reset, Event.sample 0 0,
              Event.sample 9007199254740992 0, Event.sample 9007199254740991 0])
        = 9007199254740993 := by
  refine ⟨by decide!, by decide!, ?_⟩
  have h1 : Real.sqrt ((9007199254740992 : ℝ) ^ 2) = 9007199254740992 :=
    Real.sqrt_sq (by norm_num)
  have h2 : Real.sqrt (((9007199254740991 : ℝ) - 9007199254740992) ^ 2) = 1 := by
    rw [show ((9007199254740991 : ℝ) - 9007199254740992) ^ 2 = 1 ^ 2 by norm_num]
    exact Real.sqrt_sq (by norm_num)
  simp only [sinceLastReset, List.foldl_cons, List.foldl_nil, List.nil_append, List.cons_append,
    chordSum, euclid, sub_zero, sub_self, ne_eq, OfNat.ofNat_ne_zero, not_false_eq_true,
    zero_pow, add_zero, h1, h2]
  norm_num

/-! ### Sign and monotonicity of the total -/

theorem euclidFl_nonNeg (p q : Fp × Fp) (hp1 : p.1.isFinite = true) (hp2 : p.2.isFinite = true)
    (hq1 : q.1.isFinite = true) (hq2 : q.2.isFinite = true) :
    Fp.NonNeg binary64 (euclidFl double p q) := by
  have hx : (Fp.sub binary64 q.1 p.1).isNaN = false := Fp.sub_isFinite_not_nan _ _ _ hq1 hp1
  have hy : (Fp.sub binary64 q.2 p.2).isNaN = false := Fp.sub_isFinite_not_nan _ _ _ hq2 hp2
  have sx : Fp.NonNeg binary64
      (Fp.mul binary64 (Fp.sub binary64 q.1 p.1) (Fp.sub binary64 q.1 p.1)) := by
    rcases Fp.mul_self_cases binary64 double_prec (Fp.sub binary64 q.1 p.1) with ⟨h, _⟩ | ⟨_, h⟩
    · rw [hx] at h; exact Bool.noConfusion h
    · exact h
  have sy : Fp.NonNeg binary64
      (Fp.mul binary64 (Fp.sub binary64 q.2 p.2) (Fp.sub binary64 q.2 p.2)) := by
    rcases Fp.mul_self_cases binary64 double_prec (Fp.sub binary64 q.2 p.2) with ⟨h, _⟩ | ⟨_, h⟩
    · rw [hy] at h; exact Bool.noConfusion h
    · exact h
  exact Fp.nonNeg_sqrt binary64 double_prec _ (Fp.nonNeg_add binary64 double_prec _ _ sx sy).1

theorem sound_construct (raw : DistanceCalculator Fp) : Sound (construct double raw) :=
  ⟨Fp.nonNeg_finite_zero binary64, fun h => Bool.noConfusion h⟩

theorem sound_odom (s : DistanceCalculator Fp) (x y : Fp) (hs : Sound s)
    (hx : x.isFinite = true) (hy : y.isFinite = true) :
    Sound (OnOdomReceived double s x y)
      ∧ Fp.leb s.total_distance_ (OnOdomReceived double s x y).total_distance_ = true := by
  have key : ∀ inc, Fp.NonNeg binary64 inc →
      Sound ⟨double.add s.total_distance_ inc, x, y, true⟩
        ∧ Fp.leb s.total_distance_ (double.add s.total_distance_ inc) = true := by
    intro inc hinc
    have h := Fp.nonNeg_add binary64 double_prec _ _ hs.1 hinc
    exact ⟨⟨h.1, fun _ => ⟨hx, hy⟩⟩, h.2⟩
  cases hinit : s.initialized_ with
  | false =>
    rw [OnOdomReceived_uninitialized double s x y hinit]
    exact key _ (euclidFl_nonNeg (x, y) (x, y) hx hy hx hy)
  | true =>
    rw [OnOdomReceived_initialized double s x y hinit]
    obtain ⟨hlx, hly⟩ := hs.2 hinit
    exact key _ (euclidFl_nonNeg (s.last_x_, s.last_y_) (x, y) hlx hly hx hy)

theorem leb_refl_of_nonNeg (v : Fp) (h : Fp.NonNeg binary64 v) : Fp.leb v v = true := by
  rcases h with h | ⟨y, h, _, _⟩
  · rw [h]; rfl
  · rw [h]; simp [Fp.leb, Fp.toRat]

theorem sound_step {β : Type} (oob : List Int → Option Int) (toFloat : Fp → β)
    (s u : DistanceCalculator Fp) (c : Callback Fp) (hs : Sound s)
    (hfin : finiteSamples [c] = true) (h : step double oob toFloat s c = Except.ok u) :
    Sound u
      ∧ (Fp.leb s.total_distance_ u.total_distance_ = true
          ∨ ∃ buttons, c = Callback.joy buttons ∧ readButton8 oob buttons = some 1
              ∧ u.total_distance_ = Fp.finite 0) := by
  cases c with
  | odom x y =>
    simp only [finiteSamples, Bool.and_true, Bool.and_eq_true] at hfin
    simp only [step, Except.ok.injEq] at h
    rw [← h]
    have := sound_odom s x y hs hfin.1 hfin.2
    exact ⟨this.1, Or.inl this.2⟩
  | joy buttons =>
    simp only [step, OnJoyReceived] at h
    split at h
    · cases h
    · next b hb =>
      split at h
      · next hone =>
        simp only [Except.ok.injEq] at h
        rw [← h]
        exact ⟨⟨Fp.nonNeg_finite_zero binary64, fun hh => Bool.noConfusion hh⟩,
          Or.inr ⟨buttons, rfl, by rw [hb, hone], rfl⟩⟩
      · simp only [Except.ok.injEq] at h
        rw [← h]
        exact ⟨hs, Or.inl (leb_refl_of_nonNeg _ hs.1)⟩
  | timer =>
    simp only [step, PublishDistance, Except.ok.injEq] at h
    rw [← h]
    exact ⟨hs, Or.inl (leb_refl_of_nonNeg _ hs.1)⟩

theorem finiteSamples_cons (c : Callback Fp) (cs : List (Callback Fp))
    (h : finiteSamples (c :: cs) = true) :
    finiteSamples [c] = true ∧ finiteSamples cs = true := by
  cases c with
  | odom x y =>
    simp only [finiteSamples, Bool.and_eq_true, Bool.and_true] at h ⊢
    exact ⟨h.1, h.2⟩
  | joy buttons => exact ⟨rfl, h⟩
  | timer => exact ⟨rfl, h⟩

theorem sound_run {β : Type} (oob : List Int → Option Int) (toFloat : Fp → β)
    (cbs : List (Callback Fp)) :
    ∀ s t : DistanceCalculator Fp, Sound s → finiteSamples cbs = true →
      run double oob toFloat s cbs = Except.ok t → Sound t := by
  induction cbs with
  | nil =>
    intro s t hs _ h
    simp only [run, Except.ok.injEq] at h
    rw [← h]; exact hs
  | cons c cs ih =>
    intro s t hs hfin h
    obtain ⟨hc, hcs⟩ := finiteSamples_cons c cs hfin
    simp only [run] at h
    split at h
    · cases h
    · next s1 hstep => exact ih s1 t (sound_step oob toFloat s s1 c hs hc hstep).1 hcs h

/-- C3 (amended): after odometry callbacks with finite coordinates, joystick
callbacks that do not crash and timer callbacks from the constructed state,
the total is non-negative (never a NaN); a further odometry callback with finite
coordinates leaves a total that is greater than or equal to the one before; and
a callback that does not is a joystick callback that read 1 in slot 8, i.e. a
reset. -/
theorem C3_total_nonneg_monotone {β : Type} (oob : List Int → Option Int) (toFloat : Fp → β)
    (raw t : DistanceCalculator Fp) (cbs : List (Callback Fp)) (x y : Fp)
    (hfin : finiteSamples cbs = true)
    (h : run double oob toFloat (construct double raw) cbs = Except.ok t)
    (hx : x.isFinite = true) (hy : y.isFinite = true) :
    Fp.leb (Fp.finite 0) t.total_distance_ = true
      ∧ Fp.leb t.total_distance_ (OnOdomReceived double t x y).total_distance_ = true
      ∧ ∀ (c : Callback Fp) (u : DistanceCalculator Fp), finiteSamples [c] = true →
          step double oob toFloat t c = Except.ok u →
            Fp.leb t.total_distance_ u.total_distance_ = true
              ∨ ∃ buttons, c = Callback.joy buttons ∧ readButton8 oob buttons = some 1
                  ∧ u.total_distance_ = Fp.finite 0 := by
  have hs : Sound t := sound_run oob toFloat cbs _ t (sound_construct raw) hfin h
  exact ⟨Fp.nonNeg_zero_leb binary64 _ hs.1, (sound_odom t x y hs hx hy).2,
    fun c u hc hstep => (sound_step oob toFloat t u c hs hc hstep).2⟩

/-- A run of all three callbacks from a constructed object whose raw members held
7, 1, 2, true: it ends with total 5, and a further sample (6,8) brings it to
10. -/
theorem C3_total_nonneg_monotone_witness :
    run double (fun _ => none) toFloat32 (construct double ⟨Fp.finite 7, Fp.finite 1, Fp.finite 2, true⟩)
        [Callback.odom (Fp.finite 0) (Fp.finite 0), Callback.odom (Fp.finite 3) (Fp.finite 4),
          Callback.joy [0, 0, 0, 0, 0, 0, 0, 0, 0], Callback.timer]
      = Except.ok ⟨Fp.finite 5, Fp.finite 3, Fp.finite 4, true⟩
      ∧ Fp.leb (Fp.finite 0) (Fp.finite 5) = true
      ∧ Fp.leb (Fp.finite 5)
          (OnOdomReceived double ⟨Fp.finite 5, Fp.finite 3, Fp.finite 4, true⟩
            (Fp.finite 6) (Fp.finite 8)).total_distance_ = true := by
  have h : run double (fun _ => none) toFloat32
      (construct double ⟨Fp.finite 7, Fp.finite 1, Fp.finite 2, true⟩)
      [Callback.odom (Fp.finite 0) (Fp.finite 0), Callback.odom (Fp.finite 3) (Fp.finite 4),
        Callback.joy [0, 0, 0, 0, 0, 0, 0, 0, 0], Callback.timer]
      = Except.ok ⟨Fp.finite 5, Fp.finite 3, Fp.finite 4, true⟩ := by
    decide!
  have hc := C3_total_nonneg_monotone (fun _ => none) toFloat32
    ⟨Fp.finite 7, Fp.finite 1, Fp.finite 2, true⟩ ⟨Fp.finite 5, Fp.finite 3, Fp.finite 4, true⟩
    [Callback.odom (Fp.finite 0) (Fp.finite 0), Callback.odom (Fp.finite 3) (Fp.finite 4),
      Callback.joy [0, 0, 0, 0, 0, 0, 0, 0, 0], Callback.timer]
    (Fp.finite 6) (Fp.finite 8) rfl h rfl rfl
  exact ⟨h, hc.1, hc.2.1⟩

/-- C3 as stated fails: the callbacks (0,0), (3,4), (NaN,0) take the total from 5
to a NaN, which is neither greater than or equal to 0 nor to 5. -/
theorem C3_total_nan_after_nan_sample :
    (feed double (construct double ⟨Fp.finite 0, Fp.finite 0, Fp.finite 0, false⟩)
        [(Fp.finite 0, Fp.finite 0), (Fp.finite 3, Fp.finite 4)]).total_distance_ = Fp.finite 5
      ∧ (feed double (construct double ⟨Fp.finite 0, Fp.finite 0, Fp.finite 0, false⟩)
        [(Fp.finite 0, Fp.finite 0), (Fp.finite 3, Fp.finite 4),
          (Fp.nan false, Fp.finite 0)]).total_distance_ = Fp.nan false
      ∧ Fp.leb (Fp.finite 0) (Fp.nan false) = false
      ∧ Fp.leb (Fp.finite 5) (Fp.nan false) = false := by
  decide!

/-! ### The joystick callback -/

theorem getElem?_eight_isSome (buttons : List Int) :
    (∃ b, buttons[8]? = some b) ↔ 9 ≤ buttons.length := by
  constructor
  · rintro ⟨b, hb⟩
    have := (List.getElem?_eq_some_iff.mp hb).1
    omega
  · intro h
    exact ⟨buttons[8], List.getElem?_eq_getElem (by omega)⟩

theorem readButton8_of_nine (oob : List Int → Option Int) (buttons : List Int)
    (h : 9 ≤ buttons.length) : readButton8 oob buttons = buttons[8]? := by
  obtain ⟨b, hb⟩ := (getElem?_eight_isSome buttons).mpr h
  simp [readButton8, hb]

theorem OnJoyReceived_of_nine {α : Type} (A : Arithmetic α) (oob : List Int → Option Int)
    (s : DistanceCalculator α) (buttons : List Int) (h : 9 ≤ buttons.length) :
    OnJoyReceived A oob s buttons =
      Except.ok (if buttons[8]? = some 1 then
          { s with total_distance_ := A.zero, initialized_ := false }
        else s) := by
  obtain ⟨b, hb⟩ := (getElem?_eight_isSome buttons).mpr h
  simp only [OnJoyReceived, readButton8_of_nine oob buttons h, hb, Option.some.injEq,
    reset_distance]
  split <;> rfl

/-- C4: with at least 9 button slots, the callback succeeds; it returns the
state with total 0 and initialized false when slot 8 holds 1, and the state
unchanged otherwise, whatever the other slots hold. -/
theorem C4_joy_resets_iff_slot8 {α : Type} (A : Arithmetic α) (oob : List Int → Option Int)
    (s : DistanceCalculator α) (buttons : List Int) (h : 9 ≤ buttons.length) :
    OnJoyReceived A oob s buttons =
      Except.ok (if buttons[8]? = some 1 then
          { s with total_distance_ := A.zero, initialized_ := false }
        else s) :=
  OnJoyReceived_of_nine A oob s buttons h

/-- Nine slots with slot 0 set and slot 8 clear: the state is returned
unchanged. -/
theorem C4_joy_resets_iff_slot8_witness :
    9 ≤ [(1 : Int), 0, 0, 0, 0, 0, 0, 0, 0].length
      ∧ OnJoyReceived double (fun _ => none)
          ⟨Fp.finite 5, Fp.finite 3, Fp.finite 4, true⟩ [1, 0, 0, 0, 0, 0, 0, 0, 0]
          = Except.ok ⟨Fp.finite 5, Fp.finite 3, Fp.finite 4, true⟩ :=
  ⟨by decide,
    C4_joy_resets_iff_slot8 double (fun _ => none) ⟨Fp.finite 5, Fp.finite 3, Fp.finite 4, true⟩
      [1, 0, 0, 0, 0, 0, 0, 0, 0] (by decide)⟩

theorem emissions_eq_replicate {α β : Type} (toFloat : α → β) (s : DistanceCalculator α)
    (k : Nat) :
    emissions toFloat s k = List.replicate k (toFloat s.total_distance_) := by
  induction k with
  | zero => rfl
  | succ k ih => simp only [emissions, PublishDistance, ih, List.replicate_succ]

/-- C8 (amended): `PublishDistance` leaves the state unchanged and publishes the
current total converted to the message's `float`, so `k` consecutive emissions
with no sample or reset in between all publish that same value. -/
theorem C8_publish_idempotent {α β : Type} (toFloat : α → β) (s : DistanceCalculator α)
    (k : Nat) :
    (PublishDistance toFloat s).1 = s
      ∧ (PublishDistance toFloat s).2 = toFloat s.total_distance_
      ∧ emissions toFloat s k = List.replicate k (toFloat s.total_distance_) :=
  ⟨rfl, rfl, emissions_eq_replicate toFloat s k⟩

/-- C8 as stated fails: the samples (0,0), (16777217,0) bring the total to
16777217, and the value published for that total is 16777216. -/
theorem C8_published_value_not_total :
    (feed double (construct double ⟨Fp.finite 0, Fp.finite 0, Fp.finite 0, false⟩)
        [(Fp.finite 0, Fp.finite 0), (Fp.finite 16777217, Fp.finite 0)])
        = ⟨Fp.finite 16777217, Fp.finite 16777217, Fp.finite 0, true⟩
      ∧ (PublishDistance toFloat32
          ⟨Fp.finite 16777217, Fp.finite 16777217, Fp.finite 0, true⟩).2 = Fp.finite 16777216
      ∧ (PublishDistance toFloat32
          ⟨Fp.finite 16777217, Fp.finite 16777217, Fp.finite 0, true⟩).2
        ≠ Fp.finite 16777217 := by
  decide!

end DistanceCalculator

/-! ### Field updates -/

namespace WhillInfoPublisher

/-- C9 (amended): `OnCmdVelReceived` sets the speed field to the received value
converted to `float`, and each of the other three update operations sets its
own field to the received value; none touches the other three fields; updates
of different fields commute and the later of two updates of one field wins. -/
theorem C9_updates_frame_commute {α β : Type} (toFloat : α → β)
    (s : WhillInfoPublisher β) (x x' : α) (b b' d d' t t' : β) :
    (OnCmdVelReceived toFloat s x = ⟨toFloat x, s.battery_, s.distance_, s.state_⟩
        ∧ OnBatteryReceived s b = ⟨s.cmd_vel_speed_, b, s.distance_, s.state_⟩
        ∧ OnDistanceReceived s d = ⟨s.cmd_vel_speed_, s.battery_, d, s.state_⟩
        ∧ OnStateReceived s t = ⟨s.cmd_vel_speed_, s.battery_, s.distance_, t⟩)
      ∧ (OnBatteryReceived (OnCmdVelReceived toFloat s x) b
            = OnCmdVelReceived toFloat (OnBatteryReceived s b) x
        ∧ OnDistanceReceived (OnCmdVelReceived toFloat s x) d
            = OnCmdVelReceived toFloat (OnDistanceReceived s d) x
        ∧ OnStateReceived (OnCmdVelReceived toFloat s x) t
            = OnCmdVelReceived toFloat (OnStateReceived s t) x
        ∧ OnDistanceReceived (OnBatteryReceived s b) d
            = OnBatteryReceived (OnDistanceReceived s d) b
        ∧ OnStateReceived (OnBatteryReceived s b) t
            = OnBatteryReceived (OnStateReceived s t) b
        ∧ OnStateReceived (OnDistanceReceived s d) t
            = OnDistanceReceived (OnStateReceived s t) d)
      ∧ (OnCmdVelReceived toFloat (OnCmdVelReceived toFloat s x) x'
            = OnCmdVelReceived toFloat s x'
        ∧ OnBatteryReceived (OnBatteryReceived s b) b' = OnBatteryReceived s b'
        ∧ OnDistanceReceived (OnDistanceReceived s d) d' = OnDistanceReceived s d'
        ∧ OnStateReceived (OnStateReceived s t) t' = OnStateReceived s t') :=
  ⟨⟨rfl, rfl, rfl, rfl⟩, ⟨rfl, rfl, rfl, rfl, rfl, rfl⟩, ⟨rfl, rfl, rfl, rfl⟩⟩

/-- C9 as stated fails: the received value 16777217 (a `double`) is stored in
the speed field as 16777216. -/
theorem C9_cmd_vel_not_received_value :
    (OnCmdVelReceived toFloat32
        (⟨Fp.finite 0, Fp.finite 0, Fp.finite 0, Fp.finite 0⟩ : WhillInfoPublisher Fp)
        (Fp.finite 16777217)).cmd_vel_speed_ = Fp.finite 16777216
      ∧ (OnCmdVelReceived toFloat32
        (⟨Fp.finite 0, Fp.finite 0, Fp.finite 0, Fp.finite 0⟩ : WhillInfoPublisher Fp)
        (Fp.finite 16777217)).cmd_vel_speed_ ≠ Fp.finite 16777217 := by
  decide!

/-! ### Rendering -/

/-- The `float` values denoted by the decimal literals used below, and the
`float` nearest to 2^24 + 1. -/
theorem toFloat32_values :
    toFloat32 (Fp.finite (3456 / 1000)) = Fp.finite (14495515 / 4194304)
      ∧ toFloat32 (Fp.finite (729 / 10)) = Fp.finite (9555149 / 131072)
      ∧ toFloat32 (Fp.finite (12345 / 1000)) = Fp.finite (12944671 / 1048576)
      ∧ toFloat32 (Fp.finite (-19 / 10)) = Fp.finite (-15938355 / 8388608)
      ∧ toFloat32 (Fp.finite 1) = Fp.finite 1
      ∧ toFloat32 (Fp.finite 16777216) = Fp.finite 16777216
      ∧ toFloat32 (Fp.finite 16777217) = Fp.finite 16777216
      ∧ toFloat32 (Fp.finite 16777219) = Fp.finite 16777220
      ∧ toFloat32 (Fp.finite (10 ^ 39)) = Fp.inf false
      ∧ toFloat32 (Fp.finite (-1 / 10 ^ 46)) = Fp.negZero := by
  decide!

theorem fixedDigits_two (a : ℚ) :
    fixedDigits 2 a =
      Nat.repr ((roundHalfEven (a * 100)).toNat / 100) ++ "."
        ++ String.mk [Nat.digitChar ((roundHalfEven (a * 100)).toNat / 10 % 10),
            Nat.digitChar ((roundHalfEven (a * 100)).toNat % 10)] := by
  simp [fixedDigits, fracDigits, List.range_succ, String.append_assoc]
  norm_num

theorem fixedPoint_two (v : Fp) : fixedPoint 2 v = floatText v := by
  cases v with
  | finite q =>
    simp only [fixedPoint, floatText, fixed2, fixedDigits_two, String.append_assoc]
  | negZero =>
    show "-" ++ fixedDigits 2 0 = "-0.00"
    decide!
  | inf s => cases s <;> rfl
  | nan s => cases s <;> rfl

theorem overlayText_eq (general : Nat → Fp → String) (ub : Fp → Int)
    (s : WhillInfoPublisher Fp) :
    overlayText general ub s =
      "speed:    " ++ floatText s.cmd_vel_speed_ ++ "   battery:  "
        ++ intToStr (static_cast_int ub s.battery_) ++ "   distance: "
        ++ floatText s.distance_ ++ "   state:    "
        ++ intToStr (static_cast_int ub s.state_) := by
  simp only [overlayText, StringStream.fresh, StringStream.fixed, StringStream.setprecision,
    StringStream.putString, StringStream.putFloat, StringStream.putInt,
    fixedPoint_two, String.empty_append, if_true]

/-- C6 (amended): for every telemetry snapshot the text of `PublishWhillInfo` is
"speed:    " ++ f(speed) ++ "   battery:  " ++ int(battery)
++ "   distance: " ++ f(distance) ++ "   state:    " ++ int(state), where `f`
renders a finite value in fixed point with exactly two decimal digits, rounded
to nearest with ties to even, negative zero as -0.00, and an infinity or a NaN
as inf, -inf, nan or -nan, and `int` is the decimal text of the `int` the
conversion yields; for the `float` values of 3.456, 72.9, 12.345 and 1.0 the
text is "speed:    3.46   battery:  72   distance: 12.35   state:    1". -/
theorem C6_overlay_text_layout (general : Nat → Fp → String) (ub : Fp → Int)
    (s : WhillInfoPublisher Fp) (q : ℚ) :
    (PublishWhillInfo general ub s).text
        = "speed:    " ++ floatText s.cmd_vel_speed_ ++ "   battery:  "
          ++ intToStr (static_cast_int ub s.battery_) ++ "   distance: "
          ++ floatText s.distance_ ++ "   state:    "
          ++ intToStr (static_cast_int ub s.state_)
      ∧ floatText (Fp.finite q)
          = (if q < 0 then "-" else "")
            ++ Nat.repr ((roundHalfEven (|q| * 100)).toNat / 100) ++ "."
            ++ String.mk [Nat.digitChar ((roundHalfEven (|q| * 100)).toNat / 10 % 10),
                Nat.digitChar ((roundHalfEven (|q| * 100)).toNat % 10)]
      ∧ |(roundHalfEven (|q| * 100) : ℚ) - |q| * 100| ≤ 1 / 2
      ∧ (|q| * 100 - (⌊|q| * 100⌋ : ℚ) = 1 / 2 → roundHalfEven (|q| * 100) % 2 = 0)
      ∧ (PublishWhillInfo general ub
            ⟨toFloat32 (Fp.finite (3456 / 1000)), toFloat32 (Fp.finite (729 / 10)),
              toFloat32 (Fp.finite (12345 / 1000)), toFloat32 (Fp.finite 1)⟩).text
          = "speed:    3.46   battery:  72   distance: 12.35   state:    1"
      ∧ (PublishWhillInfo general ub
            ⟨Fp.finite (1 / 8), Fp.finite 0, Fp.finite (3 / 8), Fp.finite 0⟩).text
          = "speed:    0.12   battery:  0   distance: 0.38   state:    0"
      ∧ (PublishWhillInfo general ub
            ⟨Fp.negZero, Fp.negZero, Fp.finite (-1 / 1000), Fp.finite (-5 / 2)⟩).text
          = "speed:    -0.00   battery:  0   distance: -0.00   state:    -2" := by
  have key : ∀ sp ba di st : ℚ, ∀ txt : String,
      ("speed:    " ++ floatText (Fp.finite sp) ++ "   battery:  "
          ++ intToStr (static_cast_int (fun _ => 0) (Fp.finite ba)) ++ "   distance: "
          ++ floatText (Fp.finite di) ++ "   state:    "
          ++ intToStr (static_cast_int (fun _ => 0) (Fp.finite st))) = txt →
      (-2147483648 ≤ truncate ba ∧ truncate ba ≤ 2147483647) →
      (-2147483648 ≤ truncate st ∧ truncate st ≤ 2147483647) →
      (PublishWhillInfo general ub ⟨Fp.finite sp, Fp.finite ba, Fp.finite di, Fp.finite st⟩).text
        = txt := by
    intro sp ba di st txt h hb hs
    show overlayText general ub _ = txt
    rw [overlayText_eq, ← h]
    simp only [static_cast_int, hb, hs, and_self, if_true]
  refine ⟨overlayText_eq general ub s, rfl, roundHalfEven_near _, roundHalfEven_tie_even _,
    ?_, ?_, ?_⟩
  · have hv := toFloat32_values
    rw [hv.1, hv.2.1, hv.2.2.1, hv.2.2.2.2.1]
    exact key _ _ _ _ _ (by decide!) (by decide!) (by decide!)
  · exact key _ _ _ _ _ (by decide!) (by decide!) (by decide!)
  · show overlayText general ub _ = _
    rw [overlayText_eq]
    have h1 : static_cast_int ub (Fp.finite (-5 / 2)) = -2 := by
      have : truncate (-5 / 2) = -2 := by decide!
      simp [static_cast_int, this]
    have h2 : static_cast_int ub Fp.negZero = 0 := rfl
    simp only [h1, h2]
    decide!

theorem inf_not_fixed2 (q : ℚ) : floatText (Fp.inf false) ≠ fixed2 q := by
  intro h
  have hd := congrArg String.data h
  simp only [floatText, fixed2, String.data_append] at hd
  have hl := congrArg List.length hd
  simp only [List.length_append, List.length_cons, List.length_nil] at hl
  have hx : ((if q < 0 then "-" else "").data
      ++ (Nat.repr ((roundHalfEven (|q| * 100)).toNat / 100)).data) = [] := by
    apply List.eq_nil_of_length_eq_zero
    simp only [List.length_append]
    have : ("inf" : String).data.length = 3 := rfl
    omega
  rw [hx] at hd
  simp at hd

/-- C6 as stated fails: the received speed 10^39 is stored as +infinity, and the
text then reads inf, which is not a number with two decimal digits. -/
theorem C6_infinite_speed_text :
    (OnCmdVelReceived toFloat32
        (⟨Fp.finite 0, Fp.finite 0, Fp.finite 0, Fp.finite 0⟩ : WhillInfoPublisher Fp)
        (Fp.finite (10 ^ 39)))
        = ⟨Fp.inf false, Fp.finite 0, Fp.finite 0, Fp.finite 0⟩
      ∧ (PublishWhillInfo (fun _ _ => "") (fun _ => -2147483648)
          ⟨Fp.inf false, Fp.finite 0, Fp.finite 0, Fp.finite 0⟩).text
        = "speed:    inf   battery:  0   distance: 0.00   state:    0"
      ∧ (∀ q : ℚ, floatText (Fp.inf false) ≠ fixed2 q)
      ∧ (PublishWhillInfo (fun _ _ => "") (fun _ => -2147483648)
          ⟨Fp.nan false, Fp.nan false, Fp.finite 0, Fp.finite 3000000000⟩).text
        = "speed:    nan   battery:  -2147483648   distance: 0.00   state:    -2147483648" :=
  ⟨by decide!, by decide!, inf_not_fixed2, by decide!⟩

/-! ### Conversion to int -/

end WhillInfoPublisher

end RvizInfoDisplay
